import Mathlib

/-!
Verification of the transcript parsing/validation core of the
Transcript-Analyzer repository (src/lib/transcript-parser.ts,
src/lib/validation.ts and the extended parser with the lenient
"Gemini" path).

Strings are modelled as `List Char`.  The JavaScript regular expressions of
the source are embedded as hand-written matching functions that reproduce the
greedy/backtracking behaviour of each concrete pattern on the character level.
JavaScript `Number(...)` is modelled on the fragment that arises here
(whitespace-wrapped digit strings; every other shape yields NaN, modelled as
`none`).  The dot of a regex is modelled as "any character": the lines these
patterns are applied to are pieces of a `split('\n')` and carry no newline.
-/

namespace TA

/-- Strings are lists of characters. -/
abbrev Str := List Char

/-- Whitespace characters relevant to JavaScript `trim` and `\s`
(space, tab, newline, carriage return, vertical tab, form feed). -/
def isWs (c : Char) : Bool :=
  c = ' ' || c = '\t' || c = '\n' || c = '\r' || c = '\x0b' || c = '\x0c'

/-- JavaScript `String.prototype.trim`. -/
def trim (s : Str) : Str :=
  ((s.dropWhile isWs).reverse.dropWhile isWs).reverse

/-- JavaScript `String.prototype.split` with a one-character separator:
`"".split(c) = [""]`, separators at the ends produce empty parts. -/
def splitChar (sep : Char) : Str → List Str
  | [] => [[]]
  | c :: rest =>
    match splitChar sep rest with
    | [] => [[c]]
    | p :: ps => if c = sep then [] :: p :: ps else (c :: p) :: ps

/-- Interleave a separator between parts; left inverse of `splitChar`. -/
def joinSep (sep : Char) : List Str → Str
  | [] => []
  | [p] => p
  | p :: q :: ps => p ++ sep :: joinSep sep (q :: ps)

/-- Decimal digit test, the `\d` (and `[0-9]`) character class. -/
def isDigit (c : Char) : Bool := 48 ≤ c.toNat && c.toNat ≤ 57

/-- Numeric value of a digit string (most significant first). -/
def digitsVal (s : Str) : Nat := s.foldl (fun a c => a * 10 + (c.toNat - 48)) 0

/-- JavaScript `Number(...)` on the string shapes arising in this code base:
an all-whitespace string is `0`, a whitespace-wrapped run of decimal digits is
its value, and anything else is NaN, modelled as `none`. -/
def jsNumber (s : Str) : Option Nat :=
  let t := trim s
  if t = [] then some 0
  else if t.all isDigit then some (digitsVal t)
  else none

/-- Decimal rendering core, driven by fuel (always sufficient at `n + 1`). -/
def natReprCore : Nat → Nat → Str → Str
  | 0, _, acc => acc
  | fuel + 1, n, acc =>
    if n < 10 then Char.ofNat (48 + n) :: acc
    else natReprCore fuel (n / 10) (Char.ofNat (48 + n % 10) :: acc)

/-- Decimal rendering of a natural number, JavaScript `Number#toString()`. -/
def natRepr (n : Nat) : Str := natReprCore (n + 1) n []

/-- JavaScript `String.prototype.padStart(2, '0')`. -/
def padStart2 (s : Str) : Str :=
  if s.length < 2 then List.replicate (2 - s.length) '0' ++ s else s

/-- ASCII fragment of JavaScript `String.prototype.toLowerCase`
(the inputs of this code base are ASCII). -/
def charToLower (c : Char) : Char :=
  if 65 ≤ c.toNat ∧ c.toNat ≤ 90 then Char.ofNat (c.toNat + 32) else c

/-- JavaScript `String.prototype.toLowerCase` (ASCII fragment). -/
def jsToLower (s : Str) : Str := s.map charToLower

/-- JavaScript `String.prototype.includes` (substring test). -/
def hasSubstr (hay needle : Str) : Bool :=
  match hay with
  | [] => needle.isEmpty
  | _ :: t => needle.isPrefixOf hay || hasSubstr t needle

/-! ## TimestampCodec (TranscriptParser statics) -/

/-- Matcher for the tail `:[0-5][0-9]:[0-5][0-9]` of TIMESTAMP_PATTERN,
anchored at the end of the string. -/
def mmssEnd : Str → Bool
  | ':' :: a :: b :: ':' :: c :: d :: [] =>
    (48 ≤ a.toNat && a.toNat ≤ 53) && isDigit b &&
    (48 ≤ c.toNat && c.toNat ≤ 53) && isDigit d
  | _ => false

/-- Matcher for the two-character hour alternatives `[0-1][0-9]` and `2[0-3]`
of TIMESTAMP_PATTERN. -/
def hoursTwo (c1 c2 : Char) : Bool :=
  ((c1 = '0' || c1 = '1') && isDigit c2) ||
  (c1 = '2' && (48 ≤ c2.toNat && c2.toNat ≤ 51))

/-- Anchored matcher for
`TIMESTAMP_PATTERN = /^([0-1]?[0-9]|2[0-3]):([0-5][0-9]):([0-5][0-9])$/`. -/
def timestampMatch : Str → Bool
  | c1 :: c2 :: rest =>
    (isDigit c1 && mmssEnd (c2 :: rest)) || (hoursTwo c1 c2 && mmssEnd rest)
  | _ => false

/-- `TranscriptParser.isValidTimestamp`: TIMESTAMP_PATTERN on the trimmed
input. -/
def isValidTimestamp (timestamp : Str) : Bool := timestampMatch (trim timestamp)

/-- `TranscriptParser.timestampToSeconds`:
`const [hours, minutes, seconds] = timestamp.split(':').map(Number)` and then
`hours*3600 + minutes*60 + seconds`; 'none' models a NaN result (a missing
field is `undefined` and `Number(undefined)` is NaN). -/
def timestampToSeconds (timestamp : Str) : Option Nat :=
  match splitChar ':' timestamp with
  | h :: m :: s :: _ =>
    match jsNumber h, jsNumber m, jsNumber s with
    | some hv, some mv, some sv => some (hv * 3600 + mv * 60 + sv)
    | _, _, _ => none
  | _ => none

/-- `TranscriptParser.secondsToTimestamp`: hours, minutes and seconds fields
each rendered in decimal and padded with `padStart(2, '0')`. -/
def secondsToTimestamp (totalSeconds : Nat) : Str :=
  padStart2 (natRepr (totalSeconds / 3600)) ++
    ':' :: padStart2 (natRepr (totalSeconds % 3600 / 60)) ++
    ':' :: padStart2 (natRepr (totalSeconds % 60))

/-- Decidable equality for `Except` results. -/
instance exceptDecEq {ε α : Type} [DecidableEq ε] [DecidableEq α] :
    DecidableEq (Except ε α) := fun
  | .ok a, .ok b =>
    if h : a = b then .isTrue (by rw [h])
    else .isFalse (by intro hc; cases hc; exact h rfl)
  | .error a, .error b =>
    if h : a = b then .isTrue (by rw [h])
    else .isFalse (by intro hc; cases hc; exact h rfl)
  | .ok _, .error _ => .isFalse (by intro hc; cases hc)
  | .error _, .ok _ => .isFalse (by intro hc; cases hc)

/-! ## Data model -/

/-- The TranscriptEntry record (`section` is a Lean keyword, hence the
guillemets). -/
structure TranscriptEntry where
  timestamp : Str
  «section» : Str
  content : Str
deriving DecidableEq, Repr

/-- Per-line failures of the two line parsers; the source throws
`TranscriptParseError` with a distinct message for each case (the strict and
lenient parsers share the timestamp and content messages verbatim). -/
inductive LineError
  | invalidFormat
  | invalidTimestamp (ts : Str)
  | emptySection
  | sectionNotLowercase
  | emptyContent
  | emptySpeaker
  | invalidGeminiFormat (line : Str)
deriving DecidableEq, Repr

/-- Failures of a whole parse: the non-string/empty-input guard, the
aggregated per-line error list, and the distinct "no valid entries" error. -/
inductive ParseFailure
  | invalidInput
  | parseErrors (errs : List (Nat × LineError))
  | noValidEntries
deriving DecidableEq, Repr

/-! ## Shared regex building blocks

Each JavaScript pattern of the source is embedded as one matching function.
The embeddings reproduce the backtracking behaviour of the concrete patterns:
`[^:]+` can only reach the first colon, `\s`/`\S`/`\w` runs are maximal
because the neighbouring pieces cannot match their characters, and a greedy
`\s*`/`\s+` before a final `(.+)$` hands one character back when the
remainder would otherwise be empty. -/

/-- Matcher for a `\d{1,2}:\d{2}:\d{2}` prefix (greedy: two hour digits
preferred), returning the matched characters and the rest of the string. -/
def matchHMS : Str → Option (Str × Str)
  | d1 :: d2 :: rest =>
    if isDigit d1 then
      if isDigit d2 then
        match rest with
        | ':' :: a :: b :: ':' :: c :: d :: r =>
          if isDigit a && isDigit b && isDigit c && isDigit d then
            some ([d1, d2, ':', a, b, ':', c, d], r)
          else none
        | _ => none
      else
        match d2 :: rest with
        | ':' :: a :: b :: ':' :: c :: d :: r =>
          if isDigit a && isDigit b && isDigit c && isDigit d then
            some ([d1, ':', a, b, ':', c, d], r)
          else none
        | _ => none
    else none
  | _ => none

/-- Matcher for a trailing `\s*(.+)$`: the greedy whitespace run hands one
character back when everything after it is whitespace.  Returns the `(.+)`
capture. -/
def contentCapture (r : Str) : Option Str :=
  let c := r.dropWhile isWs
  if c ≠ [] then some c
  else if r ≠ [] then some [r.getLastD ' '] else none

/-- Matcher for `\s*([^:]+):` followed by more pattern: `[^:]+` reaches
exactly to the first colon; the greedy `\s*` hands one character back when
the run before the colon is all whitespace.  Returns the speaker capture and
the rest after the colon. -/
def speakerTo (l : Str) : Option (Str × Str) :=
  let pre := l.takeWhile (· ≠ ':')
  match l.dropWhile (· ≠ ':') with
  | ':' :: rest =>
    if pre = [] then none
    else
      let sp := pre.dropWhile isWs
      some (if sp = [] then [pre.getLastD ' '] else sp, rest)
  | _ => none

/-- Matcher for `\s+([^:]+):` followed by more pattern (pattern 2 of the
cascade): at least one whitespace character must remain in the `\s+` part,
the rest of the run before the first colon is the speaker. -/
def wsSpeakerTo (l : Str) : Option (Str × Str) :=
  match l with
  | c :: _ =>
    if isWs c then
      let pre := l.takeWhile (· ≠ ':')
      match l.dropWhile (· ≠ ':') with
      | ':' :: rest =>
        if pre.length < 2 then none
        else
          let sp := pre.dropWhile isWs
          some (if sp = [] then [pre.getLastD ' '] else sp, rest)
      | _ => none
    else none
  | [] => none

/-! ## StrictEntryParser (TranscriptParser.parseTranscript) -/

/-- Matcher for
`TRANSCRIPT_LINE_PATTERN = /^-\s+(\d{1,2}:\d{2}:\d{2})\s+(\S+)\s+(.+)$/`,
returning the three captures (timestamp, section token, content). -/
def matchStrictLine (l : Str) : Option (Str × Str × Str) :=
  match l with
  | '-' :: r0 =>
    if r0.takeWhile isWs = [] then none
    else
      match matchHMS (r0.dropWhile isWs) with
      | some (ts, r2) =>
        if r2.takeWhile isWs = [] then none
        else
          let r3 := r2.dropWhile isWs
          let tok := r3.takeWhile (fun c => !isWs c)
          if tok = [] then none
          else
            match contentCapture' (r3.dropWhile (fun c => !isWs c)) with
            | some ct => some (ts, tok, ct)
            | none => none
      | none => none
  | _ => none
where
  /-- trailing `\s+(.+)$` (at least one whitespace before the content). -/
  contentCapture' (r : Str) : Option Str :=
    match r with
    | c :: _ => if isWs c then contentCapture r else none
    | [] => none

/-- `TranscriptParser.parseLine`: TRANSCRIPT_LINE_PATTERN, then timestamp
validation, the non-empty and lowercase section checks, and the non-empty
content check (MIN_CONTENT_LENGTH = 1); a successful line yields the entry
built from the trimmed captures. -/
def parseLine (line : Str) : Except LineError TranscriptEntry :=
  match matchStrictLine line with
  | none => .error .invalidFormat
  | some (ts, tok, ct) =>
    if ¬ isValidTimestamp ts then .error (.invalidTimestamp ts)
    else if trim tok = [] then .error .emptySection
    else if tok ≠ jsToLower tok then .error .sectionNotLowercase
    else if trim ct = [] then .error .emptyContent
    else .ok ⟨trim ts, trim tok, trim ct⟩

/-- The shared scanning loop of `parseTranscript` and
`parseTranscriptFromText`: walk the lines with a 1-based line number, skip
blank lines, push parsed entries and `Line i:`-tagged errors. -/
def scanLines (f : Str → Nat → Except LineError (Option TranscriptEntry)) :
    List Str → Nat → List TranscriptEntry × List (Nat × LineError) →
    List TranscriptEntry × List (Nat × LineError)
  | [], _, acc => acc
  | l :: ls, i, (es, errs) =>
    if trim l = [] then scanLines f ls (i + 1) (es, errs)
    else
      match f (trim l) (i + 1) with
      | .ok (some e) => scanLines f ls (i + 1) (es ++ [e], errs)
      | .ok none => scanLines f ls (i + 1) (es, errs)
      | .error err => scanLines f ls (i + 1) (es, errs ++ [(i + 1, err)])

/-- `TranscriptParser.parseTranscript`: guard against empty input (the only
falsy string), scan all lines of the trimmed content, then fail aggregated,
fail "no valid entries", or return the collected entries. -/
def parseTranscript (content : Str) : Except ParseFailure (List TranscriptEntry) :=
  if content = [] then .error .invalidInput
  else
    let r := scanLines (fun l _ => (parseLine l).map some)
      (splitChar '\n' (trim content)) 0 ([], [])
    if r.2 ≠ [] then .error (.parseErrors r.2)
    else if r.1 = [] then .error .noValidEntries
    else .ok r.1

/-- `TranscriptParser.validateFormat`: false for empty input, split the
trimmed content, keep non-blank lines, and search for one line matching
TRANSCRIPT_LINE_PATTERN whose captured timestamp is valid. -/
def validateFormat (content : Str) : Bool :=
  if content = [] then false
  else
    let lines := (splitChar '\n' (trim content)).filter (fun l => trim l ≠ [])
    if lines = [] then false
    else
      lines.any (fun line =>
        match matchStrictLine (trim line) with
        | some (ts, _, _) => isValidTimestamp ts
        | none => false)

/-! ## LenientEntryParser (TranscriptParser.parseTranscriptFromText) -/

/-- Matcher for `/^\d+\.$/` (a bare numbered list marker). -/
def isNumberMarker (l : Str) : Bool :=
  l.length ≥ 2 && l.dropLast.all isDigit && l.getLastD ' ' = '.'

/-- Skip test at the top of `parseGeminiLine`: very short lines, bare
numbered markers, and lines containing "transcript" case-insensitively. -/
def geminiSkip (line : Str) : Bool :=
  line.length < 5 || isNumberMarker line ||
    hasSubstr (jsToLower line) ("transcript".toList)

/-- `TranscriptParser.createTranscriptEntry`: validate the timestamp, the
speaker, and the content; the entry stores the trimmed timestamp, the speaker
trimmed, lower-cased and with whitespace runs replaced by underscores, and
the trimmed content. -/
def createTranscriptEntry (timestamp speaker content : Str) :
    Except LineError TranscriptEntry :=
  if ¬ isValidTimestamp timestamp then .error (.invalidTimestamp timestamp)
  else if trim speaker = [] then .error .emptySpeaker
  else if trim content = [] then .error .emptyContent
  else .ok ⟨trim timestamp, wsRunsToUnderscore (jsToLower (trim speaker)), trim content⟩
where
  /-- the `replace(/\s+/g, '_')` step: each maximal whitespace run becomes
  one underscore (the flag records being inside a run). -/
  wsRunsCore : Bool → Str → Str
    | _, [] => []
    | inRun, c :: rest =>
      if isWs c then
        if inRun then wsRunsCore true rest else '_' :: wsRunsCore true rest
      else c :: wsRunsCore false rest
  wsRunsToUnderscore (l : Str) : Str := wsRunsCore false l

/-- Pattern 1 of the cascade:
`/^\[(\d{1,2}:\d{2}:\d{2})\]\s*([^:]+):\s*(.+)$/`.
Returns (timestamp, speaker, content). -/
def bracketPattern (l : Str) : Option (Str × Str × Str) :=
  match l with
  | '[' :: r0 =>
    match matchHMS r0 with
    | some (ts, r1) =>
      match r1 with
      | ']' :: r2 =>
        match speakerTo r2 with
        | some (sp, r3) => (contentCapture r3).map (fun ct => (ts, sp, ct))
        | none => none
      | _ => none
    | none => none
  | _ => none

/-- Pattern 2 of the cascade:
`/^(\d{1,2}:\d{2}:\d{2})\s+([^:]+):\s*(.+)$/`. -/
def noBracketPattern (l : Str) : Option (Str × Str × Str) :=
  match matchHMS l with
  | some (ts, r1) =>
    match wsSpeakerTo r1 with
    | some (sp, r2) => (contentCapture r2).map (fun ct => (ts, sp, ct))
    | none => none
  | none => none

/-- Pattern 3 of the cascade:
`/^([^:]+):\s*\[(\d{1,2}:\d{2}:\d{2})\]\s*(.+)$/` (speaker first; `[^:]+`
reaches exactly to the first colon and nothing can hand characters back to
it). -/
def speakerFirstPattern (l : Str) : Option (Str × Str × Str) :=
  let pre := l.takeWhile (· ≠ ':')
  match l.dropWhile (· ≠ ':') with
  | ':' :: r1 =>
    if pre = [] then none
    else
      match r1.dropWhile isWs with
      | '[' :: r2 =>
        match matchHMS r2 with
        | some (ts, r3) =>
          match r3 with
          | ']' :: r4 => (contentCapture r4).map (fun ct => (ts, pre, ct))
          | _ => none
        | none => none
      | _ => none
  | _ => none

/-- Pattern 4 of the cascade:
`/^(\d{1,2}:\d{2}:\d{2})\s*-\s*([^:]+):\s*(.+)$/`. -/
def dashPattern (l : Str) : Option (Str × Str × Str) :=
  match matchHMS l with
  | some (ts, r1) =>
    match r1.dropWhile isWs with
    | '-' :: r2 =>
      match speakerTo r2 with
      | some (sp, r3) => (contentCapture r3).map (fun ct => (ts, sp, ct))
      | none => none
    | _ => none
  | none => none

/-- Pattern 5, the embedded-timestamp search `/(\d{1,2}:\d{2}:\d{2})/`:
leftmost match, preferring two hour digits; returns the matched timestamp and
the rest of the line after it (`substring(indexOf(ts) + ts.length)`). -/
def findHMS : Str → Option (Str × Str)
  | [] => none
  | c :: rest =>
    match matchHMS (c :: rest) with
    | some (ts, r) => some (ts, r)
    | none => findHMS rest

/-- Pattern 6 guard: `line.length > 20 && !line.includes(':') && /^[A-Z]/`. -/
def plainTextGuard (line : Str) : Bool :=
  line.length > 20 && !(line.contains ':') &&
    (match line with
     | c :: _ => 65 ≤ c.toNat && c.toNat ≤ 90
     | [] => false)

/-- `TranscriptParser.generateSequentialTimestamp` (10 seconds per line). -/
def generateSequentialTimestamp (lineIndex : Nat) : Str :=
  secondsToTimestamp (lineIndex * 10)

/-- `TranscriptParser.parseGeminiLine`: skip header-ish lines, then try the
six grammars of the cascade in order; `ok none` is a skipped line. -/
def parseGeminiLine (line : Str) (lineNumber : Nat) :
    Except LineError (Option TranscriptEntry) :=
  if geminiSkip line then .ok none
  else
    match bracketPattern line with
    | some (ts, sp, ct) => (createTranscriptEntry ts sp ct).map some
    | none =>
      match noBracketPattern line with
      | some (ts, sp, ct) => (createTranscriptEntry ts sp ct).map some
      | none =>
        match speakerFirstPattern line with
        | some (ts, sp, ct) => (createTranscriptEntry ts sp ct).map some
        | none =>
          match dashPattern line with
          | some (ts, sp, ct) => (createTranscriptEntry ts sp ct).map some
          | none =>
            match findHMS line with
            | some (ts, rest) =>
              if (trim rest).length > 10 then
                (createTranscriptEntry ts ("unknown_speaker".toList) (trim rest)).map some
              else if plainTextGuard line then
                (createTranscriptEntry (generateSequentialTimestamp (lineNumber - 1))
                  ("speaker".toList) line).map some
              else .error (.invalidGeminiFormat line)
            | none =>
              if plainTextGuard line then
                (createTranscriptEntry (generateSequentialTimestamp (lineNumber - 1))
                  ("speaker".toList) line).map some
              else .error (.invalidGeminiFormat line)

/-- Skip test of the whole-document fallback pass: blank or very short
lines, lines containing "transcript" or "generated" case-insensitively, and
bare numbered markers. -/
def fallbackSkip (line : Str) : Bool :=
  line = [] || line.length < 5 ||
    hasSubstr (jsToLower line) ("transcript".toList) ||
    hasSubstr (jsToLower line) ("generated".toList) ||
    isNumberMarker line

/-- The fallback loop: a running synthetic timestamp starting at 0 and
advancing by 8 seconds for every emitted entry. -/
def fallbackLoop : List Str → List TranscriptEntry × Nat →
    List TranscriptEntry × Nat
  | [], acc => acc
  | l :: ls, (es, t) =>
    if fallbackSkip (trim l) then fallbackLoop ls (es, t)
    else
      fallbackLoop ls
        (es ++ [⟨secondsToTimestamp t, "transcript".toList, trim l⟩], t + 8)

/-- `TranscriptParser.parseTranscriptFallback`. -/
def parseTranscriptFallback (content : Str) : List TranscriptEntry :=
  (fallbackLoop (splitChar '\n' (trim content)) ([], 0)).1

/-- `TranscriptParser.parseTranscriptFromText`: scan all lines with the
cascade; when there are errors and they are fewer than 80% of the lines and
the fallback pass yields entries, return cascade entries followed by the
fallback entries; otherwise fail aggregated, fail "no valid entries", or
return the cascade entries.  The float comparison
`errors.length < lines.length * 0.8` agrees with the exact rational
comparison `5 * errors < 4 * lines` for every feasible array length (the
rounding error of `0.8` never crosses an integer). -/
def parseTranscriptFromText (content : Str) :
    Except ParseFailure (List TranscriptEntry) :=
  if content = [] then .error .invalidInput
  else
    let lines := splitChar '\n' (trim content)
    let r := scanLines parseGeminiLine lines 0 ([], [])
    if 0 < r.2.length ∧ 5 * r.2.length < 4 * lines.length ∧
        parseTranscriptFallback content ≠ [] then
      .ok (r.1 ++ parseTranscriptFallback content)
    else if r.2 ≠ [] then .error (.parseErrors r.2)
    else if r.1 = [] then .error .noValidEntries
    else .ok r.1

/-! ## ValidationEngine (src/lib/validation.ts) -/

/-- Structured validation outcome; the source's ValidationResult carries
message strings, modelled here by one constructor per distinct message. -/
structure VResult (ε ω : Type) where
  isValid : Bool
  errors : List ε
  warnings : List ω
deriving Repr

/-- Word characters, the `\w` class `[A-Za-z0-9_]` (also SECTION_NAME). -/
def isWordChar (c : Char) : Bool :=
  isDigit c || (65 ≤ c.toNat && c.toNat ≤ 90) ||
    (97 ≤ c.toNat && c.toNat ≤ 122) || c = '_'

/-- `validateTimestamp` = `VALIDATION_PATTERNS.TIMESTAMP.test`, the same
pattern as TIMESTAMP_PATTERN but applied without trimming. -/
def validateTimestamp (timestamp : Str) : Bool := timestampMatch timestamp

/-- `validateSectionName`: SECTION_NAME = `/^[a-zA-Z0-9_]+$/` (the extra
`length > 0` check of the source is subsumed by the `+`). -/
def validateSectionName (sectionName : Str) : Bool :=
  sectionName ≠ [] && sectionName.all isWordChar

/-- Matcher for the bounded-hour timestamp piece
`([0-1]?[0-9]|2[0-3]):[0-5][0-9]:[0-5][0-9]` of
VALIDATION_PATTERNS.TRANSCRIPT_LINE, returning the rest of the string. -/
def tsBoundedPre (l : Str) : Option Str :=
  match l with
  | c1 :: c2 :: rest =>
    if hoursTwo c1 c2 then mmssPre rest
    else if isDigit c1 then mmssPre (c2 :: rest)
    else none
  | _ => none
where
  mmssPre : Str → Option Str
    | ':' :: a :: b :: ':' :: c :: d :: r =>
      if (48 ≤ a.toNat && a.toNat ≤ 53) && isDigit b &&
          (48 ≤ c.toNat && c.toNat ≤ 53) && isDigit d then some r
      else none
    | _ => none

/-- Anchored matcher for `VALIDATION_PATTERNS.TRANSCRIPT_LINE =
/^-\s+([0-1]?[0-9]|2[0-3]):[0-5][0-9]:[0-5][0-9]\s+(\w+)\s+(.+)$/`. -/
def matchTranscriptLineV (l : Str) : Bool :=
  match l with
  | '-' :: r0 =>
    if r0.takeWhile isWs = [] then false
    else
      match tsBoundedPre (r0.dropWhile isWs) with
      | some r2 =>
        if r2.takeWhile isWs = [] then false
        else
          let r3 := r2.dropWhile isWs
          if r3.takeWhile isWordChar = [] then false
          else
            match r3.dropWhile isWordChar with
            | c :: rest => isWs c && rest ≠ []
            | [] => false
      | none => false
  | _ => false

/-- Errors of `validateTranscriptEntry`, one per distinct message. -/
inductive EntryError
  | invalidTimestamp (ts : Str)
  | invalidSection (s : Str)
  | emptyContent
deriving DecidableEq, Repr

/-- Warnings of `validateTranscriptEntry`. -/
inductive EntryWarning
  | shortContent (sectionName content : Str)
deriving DecidableEq, Repr

/-- `validateTranscriptEntry`. -/
def validateTranscriptEntry (entry : TranscriptEntry) :
    VResult EntryError EntryWarning :=
  let errors :=
    (if ¬ validateTimestamp entry.timestamp
      then [EntryError.invalidTimestamp entry.timestamp] else []) ++
    (if ¬ validateSectionName entry.«section»
      then [EntryError.invalidSection entry.«section»] else []) ++
    (if trim entry.content = [] then [EntryError.emptyContent] else [])
  let warnings :=
    if entry.content ≠ [] ∧ (trim entry.content).length < 10
      then [EntryWarning.shortContent entry.«section» entry.content] else []
  ⟨errors = [], errors, warnings⟩

/-- Errors of `validateTranscriptEntries`: the at-least-one-entry error and
the per-entry errors tagged with their 1-based position. -/
inductive EntriesError
  | noEntries
  | atLine (lineNo : Nat) (e : EntryError)
deriving DecidableEq, Repr

/-- Warnings of `validateTranscriptEntries`: per-entry warnings tagged with
position, the duplicate-timestamp warning, and one chronological-order
warning per offending adjacent pair (the source emits one message naming the
two timestamps; the index here is the loop index of the successor entry). -/
inductive EntriesWarning
  | atLine (lineNo : Nat) (w : EntryWarning)
  | duplicateTimestamps (ts : List Str)
  | notChronological (idx : Nat) (prev curr : Str)
deriving DecidableEq, Repr

/-- `timeToSeconds` of validation.ts; its body is character-for-character
the body of `TranscriptParser.timestampToSeconds`. -/
def timeToSeconds (timeString : Str) : Option Nat := timestampToSeconds timeString

/-- JavaScript `>` on possibly-NaN numbers: false when either side is NaN. -/
def jsGT : Option Nat → Option Nat → Bool
  | some a, some b => b < a
  | _, _ => false

/-- The duplicate filter
`timestamps.filter((t, index) => timestamps.indexOf(t) !== index)`:
`all` is the whole array, the second argument the running index. -/
def dupsAt (all : List Str) : Nat → List Str → List Str
  | _, [] => []
  | i, t :: rest =>
    (if all.indexOf t ≠ i then [t] else []) ++ dupsAt all (i + 1) rest

/-- Fuel-driven core of `jsSetDedup` (the list length is enough fuel). -/
def jsSetDedupCore : Nat → List Str → List Str
  | 0, _ => []
  | _, [] => []
  | fuel + 1, x :: r => x :: jsSetDedupCore fuel (r.filter (· ≠ x))

/-- Insertion-ordered deduplication, JavaScript `[...new Set(xs)]`. -/
def jsSetDedup (l : List Str) : List Str := jsSetDedupCore l.length l

/-- The chronological-order loop of `validateTranscriptEntries`
(`for i = 1; i < entries.length; i++`), with `i` threaded explicitly. -/
def chronoWarns : Nat → List TranscriptEntry → List EntriesWarning
  | _, [] => []
  | _, [_] => []
  | i, e1 :: e2 :: rest =>
    (if jsGT (timeToSeconds e1.timestamp) (timeToSeconds e2.timestamp)
      then [EntriesWarning.notChronological i e1.timestamp e2.timestamp]
      else []) ++ chronoWarns (i + 1) (e2 :: rest)

/-- Indexed per-entry error collection of `validateTranscriptEntries`. -/
def entriesErrorsAt : Nat → List TranscriptEntry → List EntriesError
  | _, [] => []
  | i, e :: rest =>
    (validateTranscriptEntry e).errors.map (EntriesError.atLine (i + 1)) ++
      entriesErrorsAt (i + 1) rest

/-- Indexed per-entry warning collection of `validateTranscriptEntries`. -/
def entriesWarningsAt : Nat → List TranscriptEntry → List EntriesWarning
  | _, [] => []
  | i, e :: rest =>
    (validateTranscriptEntry e).warnings.map (EntriesWarning.atLine (i + 1)) ++
      entriesWarningsAt (i + 1) rest

/-- `validateTranscriptEntries`. -/
def validateTranscriptEntries (entries : List TranscriptEntry) :
    VResult EntriesError EntriesWarning :=
  if entries = [] then ⟨false, [.noEntries], []⟩
  else
    let allErrors := entriesErrorsAt 0 entries
    let timestamps := entries.map (·.timestamp)
    let dups := dupsAt timestamps 0 timestamps
    ⟨allErrors = [], allErrors,
      entriesWarningsAt 0 entries ++
        (if dups ≠ [] then [.duplicateTimestamps (jsSetDedup dups)] else []) ++
        chronoWarns 1 entries⟩

/-- Errors of `validateTranscriptFormat`. -/
inductive FormatError
  | emptyContent
  | noValidLines
  | invalidLine (lineNo : Nat) (line : Str)
deriving DecidableEq, Repr

/-- Indexed invalid-line collection of `validateTranscriptFormat` (the index
counts the non-blank lines). -/
def formatErrorsAt : Nat → List Str → List FormatError
  | _, [] => []
  | i, l :: ls =>
    (if matchTranscriptLineV (trim l) then []
      else [FormatError.invalidLine (i + 1) (trim l)]) ++ formatErrorsAt (i + 1) ls

/-- `validateTranscriptFormat`: empty-content guard, then every non-blank
line of the raw content must match TRANSCRIPT_LINE. -/
def validateTranscriptFormat (content : Str) : VResult FormatError Unit :=
  if trim content = [] then ⟨false, [.emptyContent], []⟩
  else
    let lines := (splitChar '\n' content).filter (fun l => (trim l).length > 0)
    if lines = [] then ⟨false, [.noValidLines], []⟩
    else
      let errs := formatErrorsAt 0 lines
      ⟨errs = [], errs, []⟩

/-! ## AggregateStats -/

/-- One step of the maximum search of `calculateDuration`
(`if (seconds > maxSeconds) maxSeconds = seconds`, NaN comparisons false). -/
def stepMax (acc : Nat) (e : TranscriptEntry) : Nat :=
  match timestampToSeconds e.timestamp with
  | some s => if acc < s then s else acc
  | none => acc

/-- `TranscriptParser.calculateDuration`.  The try/catch of the source is
dead: neither conversion throws. -/
def calculateDuration (entries : List TranscriptEntry) : Option Str :=
  if entries = [] then none
  else some (secondsToTimestamp (entries.foldl stepMax 0))

/-! ## Spec-side definitions

These follow the words of the specification (and of the claims under check);
the theorems below compare them with the source embeddings above. -/

/-- §4.1 in the spec's words: after trimming, exactly three colon-separated
fields, the hours field one or two digits with value at most 23, the minutes
and seconds fields exactly two digits with value at most 59. -/
def specValidTimestamp (s : Str) : Bool :=
  match splitChar ':' (trim s) with
  | [h, m, sec] =>
    (h.length = 1 || h.length = 2) && h.all isDigit && digitsVal h ≤ 23 &&
    (m.length = 2) && m.all isDigit && digitsVal m ≤ 59 &&
    (sec.length = 2) && sec.all isDigit && digitsVal sec ≤ 59
  | _ => false

/-- The zero-padded canonical form of a timestamp string (§8): every
colon-separated field of the trimmed string padded to width 2. -/
def canonicalTs (t : Str) : Str :=
  joinSep ':' ((splitChar ':' (trim t)).map padStart2)

/-- Declarative entry list of a line scan: the successful parses of the
non-blank trimmed lines, in source order, line numbers starting at `i + 1`. -/
def scanEntriesAt (f : Str → Nat → Except LineError (Option TranscriptEntry)) :
    Nat → List Str → List TranscriptEntry
  | _, [] => []
  | i, l :: ls =>
    (if trim l = [] then []
     else
       match f (trim l) (i + 1) with
       | .ok (some e) => [e]
       | _ => []) ++ scanEntriesAt f (i + 1) ls

/-- Declarative error list of a line scan: one line-numbered error per
failing non-blank line, in source order. -/
def scanErrorsAt (f : Str → Nat → Except LineError (Option TranscriptEntry)) :
    Nat → List Str → List (Nat × LineError)
  | _, [] => []
  | i, l :: ls =>
    (if trim l = [] then []
     else
       match f (trim l) (i + 1) with
       | .error err => [(i + 1, err)]
       | .ok _ => []) ++ scanErrorsAt f (i + 1) ls

/-- Declarative description of the fallback entries: counting kept lines
from `j`, the j-th kept line receives the synthetic timestamp `8 * j`
seconds, section "transcript", and the trimmed line as content. -/
def fallbackSpec : Nat → List Str → List TranscriptEntry
  | _, [] => []
  | j, l :: ls =>
    if fallbackSkip (trim l) then fallbackSpec j ls
    else ⟨secondsToTimestamp (8 * j), "transcript".toList, trim l⟩ ::
      fallbackSpec (j + 1) ls

/-- The §4.3 line grammar as the claims read it for the pre-checks:
`- HH:MM:SS token content` with a whitespace-delimited token (the strict
parser's own pattern) and a valid timestamp. -/
def lineMatchesStrictGrammar (l : Str) : Bool :=
  match matchStrictLine l with
  | some (ts, _, _) => isValidTimestamp ts
  | none => false

/-- The reading of `validateTranscriptFormat` claimed by C6: at least one
non-blank line, and every non-blank line matches the §4.3 grammar with a
whitespace-delimited (no embedded spaces) token. -/
def claimedFormatValid (content : Str) : Bool :=
  let lines := (splitChar '\n' content).filter (fun l => (trim l).length > 0)
  lines ≠ [] && lines.all (fun l => lineMatchesStrictGrammar (trim l))

/-- The word-character-token line shape (the amended C6 reading): a dash,
whitespace, a valid timestamp, whitespace, a `[A-Za-z0-9_]+` token,
whitespace, and non-empty content. -/
def wordTokenLineShape (l : Str) : Prop :=
  ∃ w1 ts w2 tok w3 ct,
    l = '-' :: (w1 ++ (ts ++ (w2 ++ (tok ++ (w3 ++ ct))))) ∧
    w1 ≠ [] ∧ w1.all isWs = true ∧
    timestampMatch ts = true ∧
    w2 ≠ [] ∧ w2.all isWs = true ∧
    tok ≠ [] ∧ tok.all isWordChar = true ∧
    w3 ≠ [] ∧ w3.all isWs = true ∧
    ct ≠ []

/-- Timestamp-as-seconds of an entry (only used under hypotheses that make
the NaN default irrelevant). -/
def entrySeconds (e : TranscriptEntry) : Nat :=
  (timestampToSeconds e.timestamp).getD 0

/-- The maximum timestamp-as-seconds over an entry list (§4.6). -/
def maxEntrySeconds (entries : List TranscriptEntry) : Nat :=
  (entries.map entrySeconds).foldr max 0

/-! ## Concrete inputs for the fallback-timestamp overflow analysis

The whole-document fallback pass manufactures `8 * j`-second timestamps
without re-validating them; after 10800 emitted lines they reach 24:00:00.
These inputs exhibit that overflow: one line the cascade rejects followed by
13600 lines it accepts, keeping the error rate far below 80%. -/

/-- A line no cascade grammar matches (and the fallback keeps). -/
def cexBad : Str := "zzzzz".toList

/-- A line the cascade's pattern 2 accepts (and the fallback also keeps). -/
def cexLine : Str := "00:00:00 a: hello".toList

/-- The entry the cascade produces for `cexLine`. -/
def cexEntry : TranscriptEntry :=
  ⟨"00:00:00".toList, "a".toList, "hello".toList⟩

/-- `n` further copies of `cexLine`, each on its own line. -/
def cexTail : Nat → Str
  | 0 => []
  | n + 1 => '\n' :: (cexLine ++ cexTail n)

/-- The overflowing input: `cexBad` and 13600 copies of `cexLine`. -/
def cexContent : Str := cexBad ++ cexTail 13600

/-! ## Character and whitespace lemmas -/

theorem char_eq_iff_toNat {a b : Char} : a = b ↔ a.toNat = b.toNat := by
  constructor
  · intro h; rw [h]
  · intro h; exact Char.ext (UInt32.ext h)

theorem char_ofNat_toNat (n : Nat) (h : n < 55296) : (Char.ofNat n).toNat = n := by
  have hv : n.isValidChar := Or.inl h
  simp [Char.ofNat, Char.ofNatAux, hv, Char.toNat]
  rfl

theorem isDigit_iff {c : Char} : isDigit c = true ↔ 48 ≤ c.toNat ∧ c.toNat ≤ 57 := by
  simp [isDigit]

theorem toNat_of_isWs {c : Char} (h : isWs c = true) :
    c.toNat = 32 ∨ c.toNat = 9 ∨ c.toNat = 10 ∨ c.toNat = 13 ∨
      c.toNat = 11 ∨ c.toNat = 12 := by
  simp only [isWs, Bool.or_eq_true, decide_eq_true_eq] at h
  rcases h with ((((h | h) | h) | h) | h) | h <;> subst h <;> decide

theorem isWs_eq_false_of_toNat {c : Char}
    (h : c.toNat ≠ 32 ∧ c.toNat ≠ 9 ∧ c.toNat ≠ 10 ∧ c.toNat ≠ 13 ∧
      c.toNat ≠ 11 ∧ c.toNat ≠ 12) : isWs c = false := by
  cases hw : isWs c
  · rfl
  · rcases toNat_of_isWs hw with h' | h' | h' | h' | h' | h' <;> omega

theorem isWs_of_isDigit {c : Char} (h : isDigit c = true) : isWs c = false := by
  rw [isDigit_iff] at h
  exact isWs_eq_false_of_toNat (by omega)

theorem ne_colon_of_toNat {c : Char} (h : c.toNat ≠ 58) : c ≠ ':' := by
  intro hc
  rw [char_eq_iff_toNat] at hc
  exact h (by simpa using hc)

theorem ne_colon_of_isDigit {c : Char} (h : isDigit c = true) : c ≠ ':' := by
  rw [isDigit_iff] at h
  exact ne_colon_of_toNat (by omega)

/-! ## dropWhile / trim lemmas -/

theorem dropWhile_append_all {p : Char → Bool} {w : Str} (h : w.all p = true)
    (r : Str) : (w ++ r).dropWhile p = r.dropWhile p := by
  induction w with
  | nil => simp
  | cons c t ih =>
    simp only [List.all_cons, Bool.and_eq_true] at h
    simp [List.dropWhile, h.1, ih h.2]

theorem dropWhile_cons_false {p : Char → Bool} {c : Char} (l : Str)
    (h : p c = false) : (c :: l).dropWhile p = c :: l := by
  simp [List.dropWhile, h]

theorem dropWhile_nil_of_all {p : Char → Bool} {l : Str} (h : l.all p = true) :
    l.dropWhile p = [] := by
  have := dropWhile_append_all h ([] : Str)
  simpa using this

theorem head?_dropWhile_false {p : Char → Bool} {l : Str} {c : Char}
    (h : (l.dropWhile p).head? = some c) : p c = false := by
  induction l with
  | nil => simp [List.dropWhile] at h
  | cons a t ih =>
    by_cases hp : p a
    · exact ih (by simpa [List.dropWhile, hp] using h)
    · simp only [List.dropWhile, hp] at h
      simp only [List.head?] at h
      cases h
      simpa using hp

theorem trim_decomp (s : Str) :
    ∃ w₁ w₂, w₁.all isWs = true ∧ w₂.all isWs = true ∧
      s = w₁ ++ trim s ++ w₂ := by
  refine ⟨s.takeWhile isWs,
    ((s.dropWhile isWs).reverse.takeWhile isWs).reverse, ?_, ?_, ?_⟩
  · simp only [List.all_eq_true]
    exact fun c h => List.mem_takeWhile_imp h
  · simp only [List.all_eq_true]
    exact fun c h => List.mem_takeWhile_imp (List.mem_reverse.mp h)
  · have eq2 : s.dropWhile isWs =
        trim s ++ ((s.dropWhile isWs).reverse.takeWhile isWs).reverse := by
      conv_lhs => rw [← List.reverse_reverse (s.dropWhile isWs),
        ← List.takeWhile_append_dropWhile (p := isWs)
          (l := (s.dropWhile isWs).reverse),
        List.reverse_append]
      rfl
    rw [List.append_assoc, ← eq2,
      List.takeWhile_append_dropWhile (p := isWs) (l := s)]

theorem trim_head?_not_ws {s : Str} {c : Char} (h : (trim s).head? = some c) :
    isWs c = false := by
  have hpre : trim s <+: s.dropWhile isWs := by
    have hsuf : (s.dropWhile isWs).reverse.dropWhile isWs <:+ (s.dropWhile isWs).reverse :=
      List.dropWhile_suffix isWs
    have := List.reverse_prefix.mpr hsuf
    simpa [trim] using this
  obtain ⟨t, ht⟩ := hpre
  have hh : (s.dropWhile isWs).head? = some c := by
    rw [← ht]
    cases htr : trim s with
    | nil => rw [htr] at h; cases h
    | cons a r =>
      rw [htr] at h
      simp only [List.head?_cons] at h
      injection h with hac
      subst hac
      rfl
  exact head?_dropWhile_false hh

theorem trim_getLast?_not_ws {s : Str} {c : Char}
    (h : (trim s).getLast? = some c) : isWs c = false := by
  have hY : ((s.dropWhile isWs).reverse.dropWhile isWs).head? = some c := by
    rw [← List.getLast?_reverse]
    exact h
  exact head?_dropWhile_false hY

theorem trim_sandwich {u v d : Str} (h₁ : u.all isWs = true)
    (h₂ : v.all isWs = true) (hd : d ≠ [])
    (hh : ∀ c, d.head? = some c → isWs c = false)
    (hl : ∀ c, d.getLast? = some c → isWs c = false) :
    trim (u ++ d ++ v) = d := by
  obtain ⟨c, t, rfl⟩ := List.exists_cons_of_ne_nil hd
  have hc : isWs c = false := hh c rfl
  have step1 : (u ++ (c :: t) ++ v).dropWhile isWs = (c :: t) ++ v := by
    rw [List.append_assoc, dropWhile_append_all h₁]
    exact dropWhile_cons_false _ hc
  have hlast : ∀ x, ((c :: t) ++ v).reverse.dropWhile isWs = x →
      x = (c :: t).reverse := by
    intro x hx
    rw [List.reverse_append, dropWhile_append_all (by simpa using h₂)] at hx
    obtain ⟨e, r, he⟩ : ∃ e r, (c :: t).reverse = e :: r := by
      cases hrev : (c :: t).reverse with
      | nil => simp at hrev
      | cons e r => exact ⟨e, r, rfl⟩
    have hlaste : (c :: t).getLast? = some e := by
      rw [← List.head?_reverse, he]; rfl
    rw [he] at hx
    rw [dropWhile_cons_false _ (hl e hlaste)] at hx
    rw [← hx, he]
  simp only [trim, step1]
  rw [hlast _ rfl, List.reverse_reverse]

theorem trim_trim (s : Str) : trim (trim s) = trim s := by
  cases h : trim s with
  | nil => rfl
  | cons c t =>
    have := trim_sandwich (u := []) (v := []) (d := c :: t) rfl rfl
      (by simp) (fun x hx => by rw [← h] at hx; exact trim_head?_not_ws hx)
      (fun x hx => by rw [← h] at hx; exact trim_getLast?_not_ws hx)
    simpa [h] using this

theorem trim_nil_iff {s : Str} : trim s = [] ↔ s.all isWs = true := by
  constructor
  · intro h
    obtain ⟨w₁, w₂, hw₁, hw₂, hs⟩ := trim_decomp s
    rw [h] at hs
    subst hs
    simp only [List.all_append, Bool.and_eq_true]
    exact ⟨by simpa using hw₁, hw₂⟩
  · intro h
    simp [trim, dropWhile_nil_of_all h]

/-! ## splitChar / joinSep lemmas -/

theorem splitChar_ne_nil (sep : Char) (s : Str) : splitChar sep s ≠ [] := by
  cases s with
  | nil => simp [splitChar]
  | cons c rest =>
    simp only [splitChar]
    cases splitChar sep rest with
    | nil => simp
    | cons p ps =>
      by_cases h : c = sep <;> simp [h]

theorem joinSep_splitChar (sep : Char) (s : Str) :
    joinSep sep (splitChar sep s) = s := by
  induction s with
  | nil => rfl
  | cons c rest ih =>
    simp only [splitChar]
    cases hs : splitChar sep rest with
    | nil => exact absurd hs (splitChar_ne_nil sep rest)
    | cons p ps =>
      rw [hs] at ih
      by_cases h : c = sep
      · subst h
        simpa [joinSep] using ih
      · simp only [if_neg h]
        cases ps with
        | nil => simpa [joinSep] using ih
        | cons q qs => simpa [joinSep] using ih

theorem not_mem_of_mem_splitChar {sep : Char} {s : Str} {p : Str}
    (hp : p ∈ splitChar sep s) : sep ∉ p := by
  induction s generalizing p with
  | nil =>
    simp only [splitChar, List.mem_singleton] at hp
    subst hp; simp
  | cons c rest ih =>
    simp only [splitChar] at hp
    cases hs : splitChar sep rest with
    | nil => exact absurd hs (splitChar_ne_nil sep rest)
    | cons q qs =>
      rw [hs] at hp
      have hp' : p ∈ (if c = sep then [] :: q :: qs else (c :: q) :: qs) := hp
      clear hp
      rename' hp' => hp
      by_cases h : c = sep
      · rw [if_pos h] at hp
        rcases List.mem_cons.mp hp with hp | hp
        · subst hp; simp
        · exact ih (hs ▸ hp)
      · rw [if_neg h] at hp
        rcases List.mem_cons.mp hp with hp | hp
        · subst hp
          intro hm
          rcases List.mem_cons.mp hm with hm | hm
          · exact h hm.symm
          · exact ih (hs ▸ List.mem_cons_self q qs) hm
        · exact ih (hs ▸ List.mem_cons_of_mem q hp)

theorem splitChar_cons_sep (sep : Char) (r : Str) :
    splitChar sep (sep :: r) = [] :: splitChar sep r := by
  simp only [splitChar]
  cases hs : splitChar sep r with
  | nil => exact absurd hs (splitChar_ne_nil sep r)
  | cons p ps => simp

theorem splitChar_cons_ne {sep c : Char} (h : c ≠ sep) (r : Str) :
    splitChar sep (c :: r) =
      (c :: (splitChar sep r).headI) :: (splitChar sep r).tail := by
  simp only [splitChar]
  cases hs : splitChar sep r with
  | nil => exact absurd hs (splitChar_ne_nil sep r)
  | cons p ps => simp [h]

theorem splitChar_append_sep {sep : Char} {a : Str} (ha : sep ∉ a) (r : Str) :
    splitChar sep (a ++ sep :: r) = a :: splitChar sep r := by
  induction a with
  | nil => simpa using splitChar_cons_sep sep r
  | cons c t ih =>
    have hc : c ≠ sep := fun h => ha (h ▸ List.mem_cons_self c t)
    have ht : sep ∉ t := fun h => ha (List.mem_cons_of_mem c h)
    rw [List.cons_append, splitChar_cons_ne hc, ih ht]
    simp

theorem splitChar_no_sep {sep : Char} {a : Str} (ha : sep ∉ a) :
    splitChar sep a = [a] := by
  induction a with
  | nil => rfl
  | cons c t ih =>
    have hc : c ≠ sep := fun h => ha (h ▸ List.mem_cons_self c t)
    have ht : sep ∉ t := fun h => ha (List.mem_cons_of_mem c h)
    rw [splitChar_cons_ne hc, ih ht]
    simp

theorem mem_joinSep_of_mem {sep : Char} {parts : List Str} {p : Str} {c : Char}
    (hp : p ∈ parts) (hc : c ∈ p) : c ∈ joinSep sep parts := by
  induction parts with
  | nil => cases hp
  | cons q qs ih =>
    cases qs with
    | nil =>
      simp only [List.mem_singleton] at hp
      subst hp
      simpa [joinSep] using hc
    | cons q' qs' =>
      rcases List.mem_cons.mp hp with h | h
      · subst h
        simp [joinSep, hc]
      · simp [joinSep, ih h]

theorem mem_of_mem_splitChar {sep : Char} {s p : Str} {c : Char}
    (hp : p ∈ splitChar sep s) (hc : c ∈ p) : c ∈ s := by
  rw [← joinSep_splitChar sep s]
  exact mem_joinSep_of_mem hp hc

/-! ## Decimal rendering lemmas -/

theorem natReprCore_small {fuel n : Nat} (acc : Str) (hf : 0 < fuel)
    (h : n < 10) : natReprCore fuel n acc = Char.ofNat (48 + n) :: acc := by
  cases fuel with
  | zero => omega
  | succ m => simp [natReprCore, h]

theorem natRepr_small {n : Nat} (h : n < 10) :
    natRepr n = [Char.ofNat (48 + n)] :=
  natReprCore_small [] (by omega) h

theorem natRepr_two {n : Nat} (h10 : 10 ≤ n) (h : n < 100) :
    natRepr n = [Char.ofNat (48 + n / 10), Char.ofNat (48 + n % 10)] := by
  have hn : ¬ n < 10 := by omega
  simp only [natRepr, natReprCore, hn, if_false]
  exact natReprCore_small _ (by omega) (by omega)

theorem padRepr2 {n : Nat} (h : n < 100) :
    padStart2 (natRepr n) =
      [Char.ofNat (48 + n / 10), Char.ofNat (48 + n % 10)] := by
  by_cases h10 : n < 10
  · have hd : n / 10 = 0 := by omega
    have hm : n % 10 = n := by omega
    rw [natRepr_small h10]
    simp [padStart2, hd, hm]
  · rw [natRepr_two (by omega) h]
    simp [padStart2]

theorem digitChar_toNat {k : Nat} (h : k < 10) :
    (Char.ofNat (48 + k)).toNat = 48 + k :=
  char_ofNat_toNat _ (by omega)

theorem isDigit_digitChar {k : Nat} (h : k < 10) :
    isDigit (Char.ofNat (48 + k)) = true := by
  rw [isDigit_iff, digitChar_toNat h]
  omega

theorem digitChar_ne_colon {k : Nat} (h : k < 10) :
    Char.ofNat (48 + k) ≠ ':' :=
  ne_colon_of_toNat (by rw [digitChar_toNat h]; omega)

theorem digitsVal_pair (a b : Char) :
    digitsVal [a, b] = (a.toNat - 48) * 10 + (b.toNat - 48) := by
  simp [digitsVal]

theorem digitsVal_one (a : Char) : digitsVal [a] = a.toNat - 48 := by
  simp [digitsVal]

theorem trim_of_all_digits {d : Str} (hne : d ≠ []) (hd : d.all isDigit = true) :
    trim d = d := by
  have hall : ∀ c ∈ d, isDigit c = true := List.all_eq_true.mp hd
  have := trim_sandwich (u := []) (v := []) (d := d) rfl rfl hne
    (fun c hc => isWs_of_isDigit (hall c (by
      cases d with
      | nil => cases hc
      | cons a t => injection hc with h; exact h ▸ List.mem_cons_self a t)))
    (fun c hc => isWs_of_isDigit (hall c (List.mem_of_mem_getLast? hc)))
  simpa using this

theorem jsNumber_of_all_digits {d : Str} (hne : d ≠ [])
    (hd : d.all isDigit = true) : jsNumber d = some (digitsVal d) := by
  simp [jsNumber, trim_of_all_digits hne hd, hne, hd]

theorem jsNumber_padded {w₁ w₂ d : Str} (h₁ : w₁.all isWs = true)
    (h₂ : w₂.all isWs = true) (hne : d ≠ []) (hd : d.all isDigit = true) :
    jsNumber (w₁ ++ d ++ w₂) = some (digitsVal d) := by
  have hall : ∀ c ∈ d, isDigit c = true := List.all_eq_true.mp hd
  have htrim : trim (w₁ ++ (d ++ w₂)) = d := by
    rw [← List.append_assoc]
    exact trim_sandwich h₁ h₂ hne
      (fun c hc => isWs_of_isDigit (hall c (by
        cases d with
        | nil => cases hc
        | cons a t => injection hc with h; exact h ▸ List.mem_cons_self a t)))
      (fun c hc => isWs_of_isDigit (hall c (List.mem_of_mem_getLast? hc)))
  rw [List.append_assoc, jsNumber]
  simp [htrim, hne, hd]

/-! ## Timestamp pattern characterization -/

theorem mmssEnd_iff {X : Str} : mmssEnd X = true ↔
    ∃ a b c d, X = [':', a, b, ':', c, d] ∧
      48 ≤ a.toNat ∧ a.toNat ≤ 53 ∧ isDigit b = true ∧
      48 ≤ c.toNat ∧ c.toNat ≤ 53 ∧ isDigit d = true := by
  constructor
  · intro h
    unfold mmssEnd at h
    split at h
    · next a b c d =>
      refine ⟨a, b, c, d, rfl, ?_⟩
      simp only [Bool.and_eq_true, decide_eq_true_eq] at h
      exact ⟨h.1.1.1.1, h.1.1.1.2, h.1.1.2, h.1.2.1, h.1.2.2, h.2⟩
    · cases h
  · rintro ⟨a, b, c, d, rfl, h1, h2, h3, h4, h5, h6⟩
    simp [mmssEnd, h1, h2, h3, h4, h5, h6]

theorem timestampMatch_iff {t : Str} : timestampMatch t = true ↔
    ((∃ h1 a b c d, t = [h1, ':', a, b, ':', c, d] ∧ isDigit h1 = true ∧
        48 ≤ a.toNat ∧ a.toNat ≤ 53 ∧ isDigit b = true ∧
        48 ≤ c.toNat ∧ c.toNat ≤ 53 ∧ isDigit d = true) ∨
      (∃ h1 h2 a b c d, t = [h1, h2, ':', a, b, ':', c, d] ∧
        hoursTwo h1 h2 = true ∧
        48 ≤ a.toNat ∧ a.toNat ≤ 53 ∧ isDigit b = true ∧
        48 ≤ c.toNat ∧ c.toNat ≤ 53 ∧ isDigit d = true)) := by
  constructor
  · intro h
    unfold timestampMatch at h
    split at h
    · next c1 c2 rest =>
      rcases Bool.or_eq_true _ _ |>.mp h with h' | h'
      · rw [Bool.and_eq_true] at h'
        obtain ⟨hd1, hmm⟩ := h'
        obtain ⟨a, b, c, d, heq, hb⟩ := mmssEnd_iff.mp hmm
        injection heq with h2 hrest
        subst h2
        subst hrest
        exact Or.inl ⟨c1, a, b, c, d, rfl, hd1, hb⟩
      · rw [Bool.and_eq_true] at h'
        obtain ⟨hh, hmm⟩ := h'
        obtain ⟨a, b, c, d, heq, hb⟩ := mmssEnd_iff.mp hmm
        subst heq
        exact Or.inr ⟨c1, c2, a, b, c, d, rfl, hh, hb⟩
    · cases h
  · rintro (⟨h1, a, b, c, d, rfl, hd1, hb⟩ | ⟨h1, h2, a, b, c, d, rfl, hh, hb⟩)
    · have : mmssEnd [':', a, b, ':', c, d] = true :=
        mmssEnd_iff.mpr ⟨a, b, c, d, rfl, hb⟩
      simp [timestampMatch, hd1, this]
    · have : mmssEnd [':', a, b, ':', c, d] = true :=
        mmssEnd_iff.mpr ⟨a, b, c, d, rfl, hb⟩
      simp [timestampMatch, hh, this]

theorem splitChar_ts_one {h1 a b c d : Char} (hh : h1 ≠ ':') (ha : a ≠ ':')
    (hb : b ≠ ':') (hc : c ≠ ':') (hd : d ≠ ':') :
    splitChar ':' [h1, ':', a, b, ':', c, d] = [[h1], [a, b], [c, d]] := by
  have e1 : splitChar ':' [c, d] = [[c, d]] := splitChar_no_sep (by simp [Ne.symm hc, Ne.symm hd])
  have e2 : splitChar ':' ([a, b] ++ ':' :: [c, d]) = [a, b] :: [[c, d]] := by
    rw [splitChar_append_sep (by simp [Ne.symm ha, Ne.symm hb]), e1]
  have e3 : splitChar ':' ([h1] ++ ':' :: ([a, b] ++ ':' :: [c, d])) =
      [h1] :: ([a, b] :: [[c, d]]) := by
    rw [splitChar_append_sep (by simp [Ne.symm hh]), e2]
  simpa using e3

theorem splitChar_ts_two {h1 h2 a b c d : Char} (hh1 : h1 ≠ ':') (hh2 : h2 ≠ ':')
    (ha : a ≠ ':') (hb : b ≠ ':') (hc : c ≠ ':') (hd : d ≠ ':') :
    splitChar ':' [h1, h2, ':', a, b, ':', c, d] = [[h1, h2], [a, b], [c, d]] := by
  have e1 : splitChar ':' [c, d] = [[c, d]] := splitChar_no_sep (by simp [Ne.symm hc, Ne.symm hd])
  have e2 : splitChar ':' ([a, b] ++ ':' :: [c, d]) = [a, b] :: [[c, d]] := by
    rw [splitChar_append_sep (by simp [Ne.symm ha, Ne.symm hb]), e1]
  have e3 : splitChar ':' ([h1, h2] ++ ':' :: ([a, b] ++ ':' :: [c, d])) =
      [h1, h2] :: ([a, b] :: [[c, d]]) := by
    rw [splitChar_append_sep (by simp [Ne.symm hh1, Ne.symm hh2]), e2]
  simpa using e3

theorem hoursTwo_iff {c1 c2 : Char} : hoursTwo c1 c2 = true ↔
    (((c1.toNat = 48 ∨ c1.toNat = 49) ∧ 48 ≤ c2.toNat ∧ c2.toNat ≤ 57) ∨
      (c1.toNat = 50 ∧ 48 ≤ c2.toNat ∧ c2.toNat ≤ 51)) := by
  have h0 : (c1 = '0') ↔ c1.toNat = 48 := char_eq_iff_toNat
  have h1 : (c1 = '1') ↔ c1.toNat = 49 := char_eq_iff_toNat
  have h2 : (c1 = '2') ↔ c1.toNat = 50 := char_eq_iff_toNat
  simp [hoursTwo, isDigit, h0, h1, h2]

theorem timestampMatch_eq_fields (t : Str) :
    timestampMatch t =
      (match splitChar ':' t with
       | [h, m, sec] =>
         (h.length = 1 || h.length = 2) && h.all isDigit && digitsVal h ≤ 23 &&
         (m.length = 2) && m.all isDigit && digitsVal m ≤ 59 &&
         (sec.length = 2) && sec.all isDigit && digitsVal sec ≤ 59
       | _ => false) := by
  rw [Bool.eq_iff_iff]
  constructor
  · intro h
    rcases timestampMatch_iff.mp h with
      ⟨h1, a, b, c, d, rfl, hd1, ha1, ha2, hb, hc1, hc2, hdd⟩ |
      ⟨h1, h2, a, b, c, d, rfl, hht, ha1, ha2, hb, hc1, hc2, hdd⟩
    · rw [splitChar_ts_one (ne_colon_of_isDigit hd1) (ne_colon_of_toNat (by omega))
        (ne_colon_of_isDigit hb) (ne_colon_of_toNat (by omega)) (ne_colon_of_isDigit hdd)]
      rw [isDigit_iff] at hd1 hb hdd
      simp [digitsVal_one, digitsVal_pair, isDigit_iff]
      omega
    · have hbounds := hoursTwo_iff.mp hht
      rw [splitChar_ts_two (ne_colon_of_toNat (by omega)) (ne_colon_of_toNat (by omega))
        (ne_colon_of_toNat (by omega)) (ne_colon_of_isDigit hb)
        (ne_colon_of_toNat (by omega)) (ne_colon_of_isDigit hdd)]
      rw [isDigit_iff] at hb hdd
      simp [digitsVal_one, digitsVal_pair, isDigit_iff]
      omega
  · intro h
    have hj := joinSep_splitChar ':' t
    cases hsp : splitChar ':' t with
    | nil => exact absurd hsp (splitChar_ne_nil ':' t)
    | cons p1 tl =>
      cases tl with
      | nil => rw [hsp] at h; cases h
      | cons p2 tl2 =>
        cases tl2 with
        | nil => rw [hsp] at h; cases h
        | cons p3 tl3 =>
          cases tl3 with
          | cons p4 tl4 => rw [hsp] at h; cases h
          | nil =>
            rw [hsp] at h hj
            simp only [Bool.and_eq_true, Bool.or_eq_true, decide_eq_true_eq] at h
            obtain ⟨⟨⟨⟨⟨⟨⟨⟨hlen1, hdig1⟩, hval1⟩, hlen2⟩, hdig2⟩, hval2⟩, hlen3⟩, hdig3⟩, hval3⟩ := h
            obtain ⟨m1, m2, rfl⟩ := List.length_eq_two.mp hlen2
            obtain ⟨s1, s2, rfl⟩ := List.length_eq_two.mp hlen3
            simp only [List.all_cons, List.all_nil, Bool.and_eq_true, isDigit_iff] at hdig2 hdig3
            rw [digitsVal_pair] at hval2 hval3
            rcases hlen1 with hlen1 | hlen1
            · obtain ⟨h1, rfl⟩ := List.length_eq_one.mp hlen1
              simp only [List.all_cons, List.all_nil, Bool.and_eq_true, isDigit_iff] at hdig1
              rw [← hj]
              apply timestampMatch_iff.mpr
              exact Or.inl ⟨h1, m1, m2, s1, s2, by simp [joinSep],
                isDigit_iff.mpr (by omega), by omega, by omega,
                isDigit_iff.mpr (by omega), by omega, by omega,
                isDigit_iff.mpr (by omega)⟩
            · obtain ⟨h1, h2, rfl⟩ := List.length_eq_two.mp hlen1
              simp only [List.all_cons, List.all_nil, Bool.and_eq_true, isDigit_iff] at hdig1
              rw [digitsVal_pair] at hval1
              rw [← hj]
              apply timestampMatch_iff.mpr
              exact Or.inr ⟨h1, h2, m1, m2, s1, s2, by simp [joinSep],
                hoursTwo_iff.mpr (by omega), by omega, by omega,
                isDigit_iff.mpr (by omega), by omega, by omega,
                isDigit_iff.mpr (by omega)⟩

theorem ofNat_toNat_small {c : Char} (h : c.toNat < 55296) :
    Char.ofNat c.toNat = c :=
  char_eq_iff_toNat.mpr (char_ofNat_toNat _ h)

theorem padRepr2_pair {a b : Char} (ha : 48 ≤ a.toNat) (ha' : a.toNat ≤ 57)
    (hb : 48 ≤ b.toNat) (hb' : b.toNat ≤ 57) :
    padStart2 (natRepr ((a.toNat - 48) * 10 + (b.toNat - 48))) = [a, b] := by
  have hv : (a.toNat - 48) * 10 + (b.toNat - 48) < 100 := by omega
  rw [padRepr2 hv]
  have hdiv : ((a.toNat - 48) * 10 + (b.toNat - 48)) / 10 = a.toNat - 48 := by omega
  have hmod : ((a.toNat - 48) * 10 + (b.toNat - 48)) % 10 = b.toNat - 48 := by omega
  rw [hdiv, hmod]
  have h48a : 48 + (a.toNat - 48) = a.toNat := by omega
  have h48b : 48 + (b.toNat - 48) = b.toNat := by omega
  rw [h48a, h48b, ofNat_toNat_small (by omega), ofNat_toNat_small (by omega)]

theorem padRepr2_single {a : Char} (ha : 48 ≤ a.toNat) (ha' : a.toNat ≤ 57) :
    padStart2 (natRepr (a.toNat - 48)) = ['0', a] := by
  have h9 : a.toNat - 48 < 10 := by omega
  rw [natRepr_small h9]
  have h48a : 48 + (a.toNat - 48) = a.toNat := by omega
  rw [h48a, ofNat_toNat_small (by omega)]
  simp [padStart2]

theorem secondsToTimestamp_hms (hv mv sv : Nat) (hm : mv ≤ 59) (hs : sv ≤ 59) :
    secondsToTimestamp (hv * 3600 + mv * 60 + sv) =
      padStart2 (natRepr hv) ++ ':' :: padStart2 (natRepr mv) ++
        ':' :: padStart2 (natRepr sv) := by
  have h1 : (hv * 3600 + mv * 60 + sv) / 3600 = hv := by omega
  have h2 : (hv * 3600 + mv * 60 + sv) % 3600 / 60 = mv := by omega
  have h3 : (hv * 3600 + mv * 60 + sv) % 60 = sv := by omega
  rw [secondsToTimestamp, h1, h2, h3]

theorem colon_not_mem_ws {w : Str} (hw : w.all isWs = true) : ':' ∉ w := by
  intro hm
  have h := List.all_eq_true.mp hw _ hm
  have h58 : (':' : Char).toNat = 58 := rfl
  rcases toNat_of_isWs h with h' | h' | h' | h' | h' | h' <;> omega

theorem padStart2_two (x y : Char) : padStart2 [x, y] = [x, y] := by
  simp [padStart2]

theorem colon_ne {x : Char} (hx : x.toNat ≠ 58) : (':' : Char) ≠ x := by
  intro h
  apply hx
  cases h
  rfl

theorem not_mem_append' {c : Char} {x y : Str} (hx : c ∉ x) (hy : c ∉ y) :
    c ∉ x ++ y := by
  intro hm
  rcases List.mem_append.mp hm with h | h
  exacts [hx h, hy h]

theorem not_mem_pair {c x y : Char} (hx : c ≠ x) (hy : c ≠ y) : c ∉ [x, y] := by
  intro hm
  rcases List.mem_cons.mp hm with h | h
  · exact hx h
  · rcases List.mem_cons.mp h with h | h
    · exact hy h
    · cases h

theorem not_mem_single {c x : Char} (hx : c ≠ x) : c ∉ [x] := by
  intro hm
  rcases List.mem_cons.mp hm with h | h
  · exact hx h
  · cases h

theorem all_digits_pair {a b : Char} (ha : 48 ≤ a.toNat) (ha' : a.toNat ≤ 57)
    (hb : 48 ≤ b.toNat) (hb' : b.toNat ≤ 57) :
    ([a, b] : Str).all isDigit = true := by
  simp [isDigit_iff]
  omega

theorem all_digits_single {a : Char} (ha : 48 ≤ a.toNat) (ha' : a.toNat ≤ 57) :
    ([a] : Str).all isDigit = true := by
  simp [isDigit_iff]
  omega

theorem timestampToSeconds_valid_struct {t : Str}
    (h : isValidTimestamp t = true) :
    ∃ hv mv sv, hv ≤ 23 ∧ mv ≤ 59 ∧ sv ≤ 59 ∧
      timestampToSeconds t = some (hv * 3600 + mv * 60 + sv) ∧
      secondsToTimestamp (hv * 3600 + mv * 60 + sv) = canonicalTs t := by
  obtain ⟨w₁, w₂, hw₁, hw₂, ht⟩ := trim_decomp t
  rcases timestampMatch_iff.mp h with
    ⟨h1, a, b, c, d, heq, hd1, ha1, ha2, hb, hc1, hc2, hdd⟩ |
    ⟨h1, h2, a, b, c, d, heq, hht, ha1, ha2, hb, hc1, hc2, hdd⟩
  · rw [isDigit_iff] at hd1 hb hdd
    have ht' : t = (w₁ ++ [h1]) ++ ':' :: ([a, b] ++ ':' :: ([c, d] ++ w₂)) := by
      rw [heq] at ht
      rw [ht]
      simp
    have hsp : splitChar ':' t = [w₁ ++ [h1], [a, b], [c, d] ++ w₂] := by
      rw [ht',
        splitChar_append_sep (not_mem_append' (colon_not_mem_ws hw₁)
          (not_mem_single (colon_ne (by omega)))),
        splitChar_append_sep (not_mem_pair (colon_ne (by omega))
          (colon_ne (by omega))),
        splitChar_no_sep (not_mem_append' (not_mem_pair (colon_ne (by omega))
          (colon_ne (by omega))) (colon_not_mem_ws hw₂))]
    have hjs1 : jsNumber (w₁ ++ [h1]) = some (h1.toNat - 48) := by
      have e : w₁ ++ [h1] = w₁ ++ [h1] ++ [] := by simp
      rw [e, jsNumber_padded hw₁ (by rfl) (by simp)
        (all_digits_single hd1.1 hd1.2), digitsVal_one]
    have hjs2 : jsNumber [a, b] = some ((a.toNat - 48) * 10 + (b.toNat - 48)) := by
      rw [jsNumber_of_all_digits (by simp)
        (all_digits_pair (by omega) (by omega) hb.1 hb.2), digitsVal_pair]
    have hjs3 : jsNumber ([c, d] ++ w₂) =
        some ((c.toNat - 48) * 10 + (d.toNat - 48)) := by
      have e : [c, d] ++ w₂ = [] ++ [c, d] ++ w₂ := by simp
      rw [e, jsNumber_padded (by rfl) hw₂ (by simp)
        (all_digits_pair (by omega) (by omega) hdd.1 hdd.2), digitsVal_pair]
    refine ⟨h1.toNat - 48, (a.toNat - 48) * 10 + (b.toNat - 48),
      (c.toNat - 48) * 10 + (d.toNat - 48), by omega, by omega, by omega, ?_, ?_⟩
    · rw [timestampToSeconds, hsp]
      simp only [hjs1, hjs2, hjs3]
    · rw [secondsToTimestamp_hms _ _ _ (by omega) (by omega),
        padRepr2_single hd1.1 hd1.2,
        padRepr2_pair (by omega) (by omega) hb.1 hb.2,
        padRepr2_pair (by omega) (by omega) hdd.1 hdd.2,
        canonicalTs, heq,
        splitChar_ts_one (ne_colon_of_toNat (by omega)) (ne_colon_of_toNat (by omega))
          (ne_colon_of_toNat (by omega)) (ne_colon_of_toNat (by omega))
          (ne_colon_of_toNat (by omega))]
      simp [joinSep, padStart2_two, padStart2]
  · have hbb := hoursTwo_iff.mp hht
    have hh1 : 48 ≤ h1.toNat ∧ h1.toNat ≤ 50 := by omega
    have hh2 : 48 ≤ h2.toNat ∧ h2.toNat ≤ 57 := by omega
    rw [isDigit_iff] at hb hdd
    have ht' : t = (w₁ ++ [h1, h2]) ++ ':' :: ([a, b] ++ ':' :: ([c, d] ++ w₂)) := by
      rw [heq] at ht
      rw [ht]
      simp
    have hsp : splitChar ':' t = [w₁ ++ [h1, h2], [a, b], [c, d] ++ w₂] := by
      rw [ht',
        splitChar_append_sep (not_mem_append' (colon_not_mem_ws hw₁)
          (not_mem_pair (colon_ne (by omega)) (colon_ne (by omega)))),
        splitChar_append_sep (not_mem_pair (colon_ne (by omega))
          (colon_ne (by omega))),
        splitChar_no_sep (not_mem_append' (not_mem_pair (colon_ne (by omega))
          (colon_ne (by omega))) (colon_not_mem_ws hw₂))]
    have hjs1 : jsNumber (w₁ ++ [h1, h2]) =
        some ((h1.toNat - 48) * 10 + (h2.toNat - 48)) := by
      have e : w₁ ++ [h1, h2] = w₁ ++ [h1, h2] ++ [] := by simp
      rw [e, jsNumber_padded hw₁ (by rfl) (by simp)
        (all_digits_pair hh1.1 (by omega) hh2.1 hh2.2), digitsVal_pair]
    have hjs2 : jsNumber [a, b] = some ((a.toNat - 48) * 10 + (b.toNat - 48)) := by
      rw [jsNumber_of_all_digits (by simp)
        (all_digits_pair (by omega) (by omega) hb.1 hb.2), digitsVal_pair]
    have hjs3 : jsNumber ([c, d] ++ w₂) =
        some ((c.toNat - 48) * 10 + (d.toNat - 48)) := by
      have e : [c, d] ++ w₂ = [] ++ [c, d] ++ w₂ := by simp
      rw [e, jsNumber_padded (by rfl) hw₂ (by simp)
        (all_digits_pair (by omega) (by omega) hdd.1 hdd.2), digitsVal_pair]
    refine ⟨(h1.toNat - 48) * 10 + (h2.toNat - 48),
      (a.toNat - 48) * 10 + (b.toNat - 48),
      (c.toNat - 48) * 10 + (d.toNat - 48), by omega, by omega, by omega, ?_, ?_⟩
    · rw [timestampToSeconds, hsp]
      simp only [hjs1, hjs2, hjs3]
    · rw [secondsToTimestamp_hms _ _ _ (by omega) (by omega),
        padRepr2_pair hh1.1 (by omega) hh2.1 hh2.2,
        padRepr2_pair (by omega) (by omega) hb.1 hb.2,
        padRepr2_pair (by omega) (by omega) hdd.1 hdd.2,
        canonicalTs, heq,
        splitChar_ts_two (ne_colon_of_toNat (by omega)) (ne_colon_of_toNat (by omega))
          (ne_colon_of_toNat (by omega)) (ne_colon_of_toNat (by omega))
          (ne_colon_of_toNat (by omega)) (ne_colon_of_toNat (by omega))]
      simp [joinSep, padStart2_two]

theorem secondsToTimestamp_explicit (n : Nat) (h : n < 360000) :
    secondsToTimestamp n =
      [Char.ofNat (48 + n / 3600 / 10), Char.ofNat (48 + n / 3600 % 10), ':',
       Char.ofNat (48 + n % 3600 / 60 / 10), Char.ofNat (48 + n % 3600 / 60 % 10), ':',
       Char.ofNat (48 + n % 60 / 10), Char.ofNat (48 + n % 60 % 10)] := by
  rw [secondsToTimestamp, padRepr2 (show n / 3600 < 100 by omega),
    padRepr2 (show n % 3600 / 60 < 100 by omega),
    padRepr2 (show n % 60 < 100 by omega)]
  rfl

theorem trim_secondsToTimestamp {n : Nat} (h : n < 360000) :
    trim (secondsToTimestamp n) = secondsToTimestamp n := by
  rw [secondsToTimestamp_explicit n h]
  have := trim_sandwich (u := ([] : Str)) (v := ([] : Str))
    (d := [Char.ofNat (48 + n / 3600 / 10), Char.ofNat (48 + n / 3600 % 10), ':',
       Char.ofNat (48 + n % 3600 / 60 / 10), Char.ofNat (48 + n % 3600 / 60 % 10), ':',
       Char.ofNat (48 + n % 60 / 10), Char.ofNat (48 + n % 60 % 10)])
    (by rfl) (by rfl) (by simp) ?_ ?_
  · simpa using this
  · intro c hc
    simp only [List.head?_cons, Option.some.injEq] at hc
    subst hc
    exact isWs_of_isDigit (isDigit_digitChar (by omega))
  · intro c hc
    simp only [List.getLast?] at hc
    simp only [List.getLast, Option.some.injEq] at hc
    subst hc
    exact isWs_of_isDigit (isDigit_digitChar (by omega))

theorem isValidTimestamp_secondsToTimestamp {n : Nat} (h : n < 86400) :
    isValidTimestamp (secondsToTimestamp n) = true := by
  rw [isValidTimestamp, trim_secondsToTimestamp (by omega),
    secondsToTimestamp_explicit n (by omega)]
  apply timestampMatch_iff.mpr
  refine Or.inr ⟨_, _, _, _, _, _, rfl, ?_, ?_, ?_, ?_, ?_, ?_, ?_⟩
  · apply hoursTwo_iff.mpr
    rw [digitChar_toNat (by omega), digitChar_toNat (by omega)]
    omega
  · rw [digitChar_toNat (by omega)]; omega
  · rw [digitChar_toNat (by omega)]; omega
  · exact isDigit_digitChar (by omega)
  · rw [digitChar_toNat (by omega)]; omega
  · rw [digitChar_toNat (by omega)]; omega
  · exact isDigit_digitChar (by omega)

theorem timestampToSeconds_secondsToTimestamp {n : Nat} (h : n < 360000) :
    timestampToSeconds (secondsToTimestamp n) = some n := by
  rw [secondsToTimestamp_explicit n h, timestampToSeconds,
    splitChar_ts_two (digitChar_ne_colon (by omega)) (digitChar_ne_colon (by omega))
      (digitChar_ne_colon (by omega)) (digitChar_ne_colon (by omega))
      (digitChar_ne_colon (by omega)) (digitChar_ne_colon (by omega))]
  have e1 : jsNumber [Char.ofNat (48 + n / 3600 / 10), Char.ofNat (48 + n / 3600 % 10)] =
      some (n / 3600) := by
    rw [jsNumber_of_all_digits (by simp)
      (all_digits_pair (by rw [digitChar_toNat (by omega)]; omega)
        (by rw [digitChar_toNat (by omega)]; omega)
        (by rw [digitChar_toNat (by omega)]; omega)
        (by rw [digitChar_toNat (by omega)]; omega)), digitsVal_pair,
      digitChar_toNat (by omega), digitChar_toNat (by omega)]
    congr 1
    omega
  have e2 : jsNumber [Char.ofNat (48 + n % 3600 / 60 / 10), Char.ofNat (48 + n % 3600 / 60 % 10)] =
      some (n % 3600 / 60) := by
    rw [jsNumber_of_all_digits (by simp)
      (all_digits_pair (by rw [digitChar_toNat (by omega)]; omega)
        (by rw [digitChar_toNat (by omega)]; omega)
        (by rw [digitChar_toNat (by omega)]; omega)
        (by rw [digitChar_toNat (by omega)]; omega)), digitsVal_pair,
      digitChar_toNat (by omega), digitChar_toNat (by omega)]
    congr 1
    omega
  have e3 : jsNumber [Char.ofNat (48 + n % 60 / 10), Char.ofNat (48 + n % 60 % 10)] =
      some (n % 60) := by
    rw [jsNumber_of_all_digits (by simp)
      (all_digits_pair (by rw [digitChar_toNat (by omega)]; omega)
        (by rw [digitChar_toNat (by omega)]; omega)
        (by rw [digitChar_toNat (by omega)]; omega)
        (by rw [digitChar_toNat (by omega)]; omega)), digitsVal_pair,
      digitChar_toNat (by omega), digitChar_toNat (by omega)]
    congr 1
    omega
  simp only [e1, e2, e3]
  congr 1
  omega

/-! ## Claim theorems: timestamp codec -/

/-- C4: for every string s, isValidTimestamp s is true exactly when, after
trimming, s consists of three colon-separated fields with the hours field
one or two digits denoting 0-23 and the minutes and seconds fields exactly
two digits denoting 00-59. -/
theorem C4_isValidTimestamp_iff_fields (s : Str) :
    isValidTimestamp s = specValidTimestamp s := by
  rw [isValidTimestamp, specValidTimestamp]
  exact timestampMatch_eq_fields (trim s)

/-- C5: for every string matching the timestamp grammar, converting to
seconds and back yields the zero-padded canonical form of the string. -/
theorem C5_roundtrip_string (t : Str) (h : isValidTimestamp t = true) :
    (timestampToSeconds t).map secondsToTimestamp = some (canonicalTs t) := by
  obtain ⟨hv, mv, sv, _, _, _, hts, hsec⟩ := timestampToSeconds_valid_struct h
  rw [hts]
  simpa using hsec

/-- Witness for C5 at the one-digit-hour timestamp "9:05:03". -/
theorem C5_roundtrip_string_witness :
    isValidTimestamp ("9:05:03".toList) = true ∧
      (timestampToSeconds ("9:05:03".toList)).map secondsToTimestamp =
        some (canonicalTs ("9:05:03".toList)) :=
  ⟨by decide, C5_roundtrip_string _ (by decide)⟩

/-- C9: for every number of seconds below one day, rendering and re-parsing
is the identity and the rendered timestamp is valid. -/
theorem C9_roundtrip_numeric (n : Nat) (h : n < 86400) :
    timestampToSeconds (secondsToTimestamp n) = some n ∧
      isValidTimestamp (secondsToTimestamp n) = true :=
  ⟨timestampToSeconds_secondsToTimestamp (by omega),
    isValidTimestamp_secondsToTimestamp h⟩

/-- Witness for C9 at 975 seconds. -/
theorem C9_roundtrip_numeric_witness :
    975 < 86400 ∧
      (timestampToSeconds (secondsToTimestamp 975) = some 975 ∧
        isValidTimestamp (secondsToTimestamp 975) = true) :=
  ⟨by decide, C9_roundtrip_numeric 975 (by decide)⟩

/-! ## Claim theorems: duration -/

theorem timestampToSeconds_some {t : Str} (h : isValidTimestamp t = true) :
    ∃ v, timestampToSeconds t = some v := by
  obtain ⟨hv, mv, sv, _, _, _, hts, _⟩ := timestampToSeconds_valid_struct h
  exact ⟨_, hts⟩

theorem stepMax_of_valid {acc : Nat} {e : TranscriptEntry}
    (h : isValidTimestamp e.timestamp = true) :
    stepMax acc e = max acc (entrySeconds e) := by
  obtain ⟨v, hv⟩ := timestampToSeconds_some h
  rw [stepMax, hv, entrySeconds, hv]
  by_cases hc : acc < v <;> simp [hc] <;> omega

theorem foldl_stepMax_eq (l : List TranscriptEntry) (acc : Nat)
    (hval : ∀ e ∈ l, isValidTimestamp e.timestamp = true) :
    l.foldl stepMax acc = max acc ((l.map entrySeconds).foldr max 0) := by
  induction l generalizing acc with
  | nil => simp
  | cons e rest ih =>
    rw [List.foldl_cons, stepMax_of_valid (hval e (List.mem_cons_self e rest)),
      ih _ (fun x hx => hval x (List.mem_cons_of_mem e hx))]
    simp [List.map_cons, List.foldr_cons]
    omega

/-- C8: calculateDuration is nothing on the empty list and otherwise renders
the maximum timestamp-as-seconds over all entries. -/
theorem C8_calculateDuration (entries : List TranscriptEntry)
    (hval : ∀ e ∈ entries, isValidTimestamp e.timestamp = true) :
    calculateDuration entries =
      if entries = [] then none
      else some (secondsToTimestamp (maxEntrySeconds entries)) := by
  by_cases he : entries = []
  · simp [calculateDuration, he]
  · rw [calculateDuration, if_neg he, if_neg he, foldl_stepMax_eq entries 0 hval,
      maxEntrySeconds]
    simp

/-- Witness for C8 on the four-entry example of §8. -/
theorem C8_calculateDuration_witness :
    calculateDuration
        [⟨"00:10:00".toList, "a".toList, "x".toList⟩,
         ⟨"00:05:30".toList, "a".toList, "x".toList⟩,
         ⟨"00:15:45".toList, "a".toList, "x".toList⟩,
         ⟨"00:02:15".toList, "a".toList, "x".toList⟩] =
      (if ([⟨"00:10:00".toList, "a".toList, "x".toList⟩,
         ⟨"00:05:30".toList, "a".toList, "x".toList⟩,
         ⟨"00:15:45".toList, "a".toList, "x".toList⟩,
         ⟨"00:02:15".toList, "a".toList, "x".toList⟩] : List TranscriptEntry) = []
       then none
       else some (secondsToTimestamp (maxEntrySeconds
         [⟨"00:10:00".toList, "a".toList, "x".toList⟩,
          ⟨"00:05:30".toList, "a".toList, "x".toList⟩,
          ⟨"00:15:45".toList, "a".toList, "x".toList⟩,
          ⟨"00:02:15".toList, "a".toList, "x".toList⟩]))) :=
  C8_calculateDuration _ (by decide)

/-! ## Claim theorems: chronological-order warnings -/

theorem chrono_idx_lower {k : Nat} {l : List TranscriptEntry} {i : Nat} {p c : Str}
    (h : EntriesWarning.notChronological i p c ∈ chronoWarns k l) : k ≤ i := by
  induction l generalizing k with
  | nil => cases h
  | cons e1 rest ih =>
    cases rest with
    | nil => cases h
    | cons e2 r =>
      rw [chronoWarns] at h
      rcases List.mem_append.mp h with h | h
      · split at h
        · rcases List.mem_singleton.mp h with h'
          injection h' with h1 _ _
          omega
        · cases h
      · have := ih h
        omega

theorem chrono_mem_decomp (k : Nat) (l₁ l₂ : List TranscriptEntry)
    (e1 e2 : TranscriptEntry) (p c : Str) :
    (EntriesWarning.notChronological (k + l₁.length) p c ∈
      chronoWarns k (l₁ ++ e1 :: e2 :: l₂)) ↔
    (p = e1.timestamp ∧ c = e2.timestamp ∧
      jsGT (timeToSeconds e1.timestamp) (timeToSeconds e2.timestamp) = true) := by
  induction l₁ generalizing k with
  | nil =>
    simp only [List.nil_append, List.length_nil, Nat.add_zero]
    rw [chronoWarns]
    constructor
    · intro h
      rcases List.mem_append.mp h with h | h
      · split at h
        · next hgt =>
          rcases List.mem_singleton.mp h with h'
          injection h' with h1 h2 h3
          exact ⟨h2, h3, hgt⟩
        · cases h
      · have := chrono_idx_lower h
        omega
    · rintro ⟨rfl, rfl, hgt⟩
      apply List.mem_append.mpr
      left
      rw [if_pos hgt]
      exact List.mem_singleton.mpr rfl
  | cons x l₁' ih =>
    obtain ⟨y, r, hyr⟩ : ∃ y r, l₁' ++ e1 :: e2 :: l₂ = y :: r := by
      cases l₁' with
      | nil => exact ⟨e1, e2 :: l₂, rfl⟩
      | cons a t => exact ⟨a, t ++ e1 :: e2 :: l₂, rfl⟩
    rw [List.cons_append, hyr, chronoWarns, ← hyr]
    constructor
    · intro h
      rcases List.mem_append.mp h with h | h
      · split at h
        · rcases List.mem_singleton.mp h with h'
          injection h' with h1 _ _
          rw [List.length_cons] at h1
          omega
        · cases h
      · have h' := h
        rw [show k + (x :: l₁').length = (k + 1) + l₁'.length by simp; omega] at h'
        exact (ih (k + 1)).mp h'
    · intro hc
      apply List.mem_append.mpr
      right
      rw [show k + (x :: l₁').length = (k + 1) + l₁'.length by simp; omega]
      exact (ih (k + 1)).mpr hc

theorem entriesWarningsAt_shape {i : Nat} {l : List TranscriptEntry}
    {w : EntriesWarning} (h : w ∈ entriesWarningsAt i l) :
    ∃ k ew, w = EntriesWarning.atLine k ew := by
  induction l generalizing i with
  | nil => cases h
  | cons e rest ih =>
    rw [entriesWarningsAt] at h
    rcases List.mem_append.mp h with h | h
    · obtain ⟨ew, _, hw⟩ := List.mem_map.mp h
      exact ⟨i + 1, ew, hw.symm⟩
    · exact ih h

/-- C7: in validateTranscriptEntries, the chronological-order warning for an
adjacent pair is emitted exactly when the predecessor's timestamp-as-seconds
strictly exceeds the successor's (so equal timestamps are never flagged). -/
theorem C7_chronological_warning (l₁ l₂ : List TranscriptEntry)
    (e1 e2 : TranscriptEntry)
    (hval : ∀ e ∈ l₁ ++ e1 :: e2 :: l₂, isValidTimestamp e.timestamp = true) :
    (EntriesWarning.notChronological (l₁.length + 1) e1.timestamp e2.timestamp ∈
      (validateTranscriptEntries (l₁ ++ e1 :: e2 :: l₂)).warnings) ↔
    entrySeconds e2 < entrySeconds e1 := by
  have hne : l₁ ++ e1 :: e2 :: l₂ ≠ [] := by simp
  have hstep : (EntriesWarning.notChronological (l₁.length + 1) e1.timestamp
        e2.timestamp ∈ (validateTranscriptEntries (l₁ ++ e1 :: e2 :: l₂)).warnings) ↔
      (EntriesWarning.notChronological (l₁.length + 1) e1.timestamp e2.timestamp ∈
        chronoWarns 1 (l₁ ++ e1 :: e2 :: l₂)) := by
    rw [validateTranscriptEntries, if_neg hne]
    simp only [List.mem_append]
    constructor
    · rintro ((h | h) | h)
      · obtain ⟨k, ew, hk⟩ := entriesWarningsAt_shape h
        cases hk
      · split at h
        · exact absurd (List.mem_singleton.mp h) (by simp)
        · cases h
      · exact h
    · intro h
      exact Or.inr h
  rw [hstep, show l₁.length + 1 = 1 + l₁.length from Nat.add_comm _ _,
    chrono_mem_decomp]
  obtain ⟨v1, hv1⟩ := timestampToSeconds_some
    (hval e1 (by simp))
  obtain ⟨v2, hv2⟩ := timestampToSeconds_some
    (hval e2 (by simp))
  rw [timeToSeconds, timeToSeconds, hv1, hv2, entrySeconds, entrySeconds, hv1, hv2]
  simp [jsGT]

/-- Witness for C7 on an out-of-order adjacent pair. -/
theorem C7_chronological_warning_witness :
    (EntriesWarning.notChronological 1 ("00:02:00".toList) ("00:01:00".toList) ∈
      (validateTranscriptEntries
        [⟨"00:02:00".toList, "a".toList, "hello".toList⟩,
         ⟨"00:01:00".toList, "a".toList, "world".toList⟩]).warnings) ↔
    entrySeconds ⟨"00:01:00".toList, "a".toList, "world".toList⟩ <
      entrySeconds ⟨"00:02:00".toList, "a".toList, "hello".toList⟩ :=
  C7_chronological_warning [] []
    ⟨"00:02:00".toList, "a".toList, "hello".toList⟩
    ⟨"00:01:00".toList, "a".toList, "world".toList⟩ (by decide)

/-! ## Claim theorems: strict parser and pre-check -/

theorem scanLines_eq (f : Str → Nat → Except LineError (Option TranscriptEntry)) :
    ∀ (ls : List Str) (i : Nat) (es : List TranscriptEntry)
      (errs : List (Nat × LineError)),
      scanLines f ls i (es, errs) =
        (es ++ scanEntriesAt f i ls, errs ++ scanErrorsAt f i ls) := by
  intro ls
  induction ls with
  | nil => intro i es errs; simp [scanLines, scanEntriesAt, scanErrorsAt]
  | cons l rest ih =>
    intro i es errs
    rw [scanLines, scanEntriesAt, scanErrorsAt]
    by_cases ht : trim l = []
    · rw [if_pos ht, ih]
      simp [ht]
    · rw [if_neg ht]
      cases hf : f (trim l) (i + 1) with
      | ok oe =>
        cases oe with
        | some e => simp [ht, hf, ih]
        | none => simp [ht, hf, ih]
      | error err => simp [ht, hf, ih]

/-- C1 (amended to non-empty input): the strict parser scans every line,
collects one line-numbered error per failing non-blank line, fails with the
aggregated list exactly when it is non-empty, fails with the distinct
"no valid entries" error when nothing failed but nothing parsed, and
otherwise returns the entries in source line order. -/
theorem C1_parseTranscript_aggregation (content : Str) (h : content ≠ []) :
    parseTranscript content =
      (let lines := splitChar '\n' (trim content)
       let errs := scanErrorsAt (fun l _ => (parseLine l).map some) 0 lines
       let ents := scanEntriesAt (fun l _ => (parseLine l).map some) 0 lines
       if errs ≠ [] then .error (.parseErrors errs)
       else if ents = [] then .error .noValidEntries
       else .ok ents) := by
  rw [parseTranscript, if_neg h]
  rw [scanLines_eq]
  simp

/-- Witness for C1 on a two-line transcript with one failing line. -/
theorem C1_parseTranscript_aggregation_witness :
    ("- 00:00:00 intro Welcome\nbad line".toList : Str) ≠ [] ∧
      parseTranscript ("- 00:00:00 intro Welcome\nbad line".toList) =
        (let lines := splitChar '\n' (trim ("- 00:00:00 intro Welcome\nbad line".toList))
         let errs := scanErrorsAt (fun l _ => (parseLine l).map some) 0 lines
         let ents := scanEntriesAt (fun l _ => (parseLine l).map some) 0 lines
         if errs ≠ [] then .error (.parseErrors errs)
         else if ents = [] then .error .noValidEntries
         else .ok ents) :=
  ⟨by decide, C1_parseTranscript_aggregation _ (by decide)⟩

/-- Counterexample to C1 as stated, at the empty input: no line fails and no
entry is produced, yet the parser throws the invalid-input error, not the
distinct "no valid entries" error. -/
theorem C1_counterexample_empty :
    scanErrorsAt (fun l _ => (parseLine l).map some) 0
        (splitChar '\n' (trim [])) = [] ∧
      scanEntriesAt (fun l _ => (parseLine l).map some) 0
        (splitChar '\n' (trim [])) = [] ∧
      parseTranscript [] ≠ Except.error ParseFailure.noValidEntries := by
  refine ⟨by decide, by decide, ?_⟩
  intro h
  rw [parseTranscript] at h
  simp at h

/-- C10: the strict pre-check validateFormat accepts exactly the non-empty
inputs having at least ONE non-blank line that matches the canonical pattern
with a valid timestamp; it does not require every line to match. -/
theorem C10_validateFormat_exists_line (content : Str) :
    validateFormat content = true ↔
      (content ≠ [] ∧ ∃ l ∈ splitChar '\n' (trim content),
        trim l ≠ [] ∧ lineMatchesStrictGrammar (trim l) = true) := by
  by_cases hc : content = []
  · simp [validateFormat, hc]
  · rw [validateFormat, if_neg hc]
    by_cases hl : (splitChar '\n' (trim content)).filter (fun l => trim l ≠ []) = []
    · rw [hl]
      simp only [if_pos rfl]
      constructor
      · intro h; cases h
      · rintro ⟨_, l, hmem, hne, _⟩
        have : l ∈ (splitChar '\n' (trim content)).filter (fun l => trim l ≠ []) :=
          List.mem_filter.mpr ⟨hmem, by simpa using hne⟩
        rw [hl] at this
        cases this
    · rw [if_neg hl]
      rw [List.any_eq_true]
      constructor
      · rintro ⟨l, hmem, hq⟩
        obtain ⟨hmem', hne⟩ := List.mem_filter.mp hmem
        exact ⟨hc, l, hmem', by simpa using hne, hq⟩
      · rintro ⟨_, l, hmem, hne, hq⟩
        exact ⟨l, List.mem_filter.mpr ⟨hmem, by simpa using hne⟩, hq⟩

/-! ## Claim theorems: validateTranscriptFormat -/

theorem takeWhile_append_stop {p : Char → Bool} {w : Str} (hw : w.all p = true) :
    ∀ {c : Char} (t : Str), p c = false →
      (w ++ c :: t).takeWhile p = w ∧ (w ++ c :: t).dropWhile p = c :: t := by
  induction w with
  | nil => intro c t hc; simp [List.takeWhile, List.dropWhile, hc]
  | cons a w' ih =>
    intro c t hc
    simp only [List.all_cons, Bool.and_eq_true] at hw
    have := ih hw.2 (c := c) t hc
    simp [List.takeWhile, List.dropWhile, hw.1, this.1, this.2]

theorem isWs_of_isWordChar {c : Char} (h : isWordChar c = true) :
    isWs c = false := by
  simp only [isWordChar, Bool.or_eq_true, isDigit_iff] at h
  rcases h with ((h | h) | h) | h
  · exact isWs_eq_false_of_toNat (by omega)
  · simp only [Bool.and_eq_true, decide_eq_true_eq] at h
    exact isWs_eq_false_of_toNat (by omega)
  · simp only [Bool.and_eq_true, decide_eq_true_eq] at h
    exact isWs_eq_false_of_toNat (by omega)
  · rw [decide_eq_true_eq] at h
    subst h
    decide

theorem mmssPre_iff {X : Str} {r : Str} :
    tsBoundedPre.mmssPre X = some r ↔
      ∃ a b c d, X = ':' :: a :: b :: ':' :: c :: d :: r ∧
        48 ≤ a.toNat ∧ a.toNat ≤ 53 ∧ isDigit b = true ∧
        48 ≤ c.toNat ∧ c.toNat ≤ 53 ∧ isDigit d = true := by
  constructor
  · intro h
    unfold tsBoundedPre.mmssPre at h
    split at h
    · next a b c d r' =>
      split at h
      · next hb =>
        injection h with h'
        subst h'
        simp only [Bool.and_eq_true, decide_eq_true_eq] at hb
        exact ⟨a, b, c, d, rfl, hb.1.1.1.1, hb.1.1.1.2, hb.1.1.2, hb.1.2.1,
          hb.1.2.2, hb.2⟩
      · cases h
    · cases h
  · rintro ⟨a, b, c, d, rfl, h1, h2, h3, h4, h5, h6⟩
    unfold tsBoundedPre.mmssPre
    simp [h1, h2, h3, h4, h5, h6]

theorem hoursTwo_colon (c1 : Char) : hoursTwo c1 ':' = false := by
  cases h : hoursTwo c1 ':'
  · rfl
  · have := hoursTwo_iff.mp h
    have h58 : (':' : Char).toNat = 58 := rfl
    omega

theorem tsBoundedPre_iff {l r : Str} :
    tsBoundedPre l = some r ↔
      ∃ ts, l = ts ++ r ∧ timestampMatch ts = true := by
  constructor
  · intro h
    unfold tsBoundedPre at h
    split at h
    · next c1 c2 rest =>
      by_cases hh : hoursTwo c1 c2 = true
      · rw [if_pos hh] at h
        obtain ⟨a, b, c, d, hrest, hb⟩ := mmssPre_iff.mp h
        subst hrest
        exact ⟨[c1, c2, ':', a, b, ':', c, d], by simp,
          timestampMatch_iff.mpr (Or.inr ⟨c1, c2, a, b, c, d, rfl, hh,
            hb.1, hb.2.1, hb.2.2.1, hb.2.2.2.1, hb.2.2.2.2.1, hb.2.2.2.2.2⟩)⟩
      · rw [if_neg hh] at h
        split at h
        · next hd1 =>
          obtain ⟨a, b, c, d, hrest, hb⟩ := mmssPre_iff.mp h
          rw [hrest]
          exact ⟨[c1, ':', a, b, ':', c, d], by simp,
            timestampMatch_iff.mpr (Or.inl ⟨c1, a, b, c, d, rfl, hd1,
              hb.1, hb.2.1, hb.2.2.1, hb.2.2.2.1, hb.2.2.2.2.1, hb.2.2.2.2.2⟩)⟩
        · cases h
    · cases h
  · rintro ⟨ts, rfl, hts⟩
    rcases timestampMatch_iff.mp hts with
      ⟨h1, a, b, c, d, hts', hd1, ha1, ha2, hb, hc1, hc2, hdd⟩ |
      ⟨h1, h2, a, b, c, d, hts', hht, ha1, ha2, hb, hc1, hc2, hdd⟩
    · subst hts'
      show (if hoursTwo h1 ':' = true then
          tsBoundedPre.mmssPre (a :: b :: ':' :: c :: d :: r)
        else if isDigit h1 = true then
          tsBoundedPre.mmssPre (':' :: a :: b :: ':' :: c :: d :: r)
        else none) = some r
      rw [hoursTwo_colon, if_neg (by simp), if_pos hd1]
      apply mmssPre_iff.mpr
      rw [isDigit_iff] at hb hdd
      exact ⟨a, b, c, d, rfl, ha1, ha2, isDigit_iff.mpr hb, hc1, hc2,
        isDigit_iff.mpr hdd⟩
    · subst hts'
      show (if hoursTwo h1 h2 = true then
          tsBoundedPre.mmssPre (':' :: a :: b :: ':' :: c :: d :: r)
        else if isDigit h1 = true then
          tsBoundedPre.mmssPre (h2 :: ':' :: a :: b :: ':' :: c :: d :: r)
        else none) = some r
      rw [if_pos hht]
      apply mmssPre_iff.mpr
      rw [isDigit_iff] at hb hdd
      exact ⟨a, b, c, d, rfl, ha1, ha2, isDigit_iff.mpr hb, hc1, hc2,
        isDigit_iff.mpr hdd⟩

theorem isWordChar_eq_false_of_ws {c : Char} (h : isWs c = true) :
    isWordChar c = false := by
  cases hw : isWordChar c
  · rfl
  · rw [isWs_of_isWordChar hw] at h
    cases h

theorem takeWhile_all (p : Char → Bool) (l : Str) :
    (l.takeWhile p).all p = true :=
  List.all_eq_true.mpr (fun _ h => List.mem_takeWhile_imp h)

theorem dropWhile_first_false {p : Char → Bool} {l : Str}
    (h : l.dropWhile p ≠ []) :
    p ((l.dropWhile p).headI) = false := by
  cases hd : l.dropWhile p with
  | nil => exact absurd hd h
  | cons c t =>
    have : (l.dropWhile p).head? = some c := by rw [hd]; rfl
    simpa using head?_dropWhile_false this

theorem matchTranscriptLineV_eq (r0 : Str) :
    matchTranscriptLineV ('-' :: r0) =
      (if r0.takeWhile isWs = [] then false
       else
         match tsBoundedPre (r0.dropWhile isWs) with
         | some r2 =>
           if r2.takeWhile isWs = [] then false
           else
             if (r2.dropWhile isWs).takeWhile isWordChar = [] then false
             else
               match (r2.dropWhile isWs).dropWhile isWordChar with
               | c :: rest => isWs c && rest ≠ []
               | [] => false
         | none => false) := rfl

theorem matchTranscriptLineV_ne_dash {c : Char} (hc : c ≠ '-') (r : Str) :
    matchTranscriptLineV (c :: r) = false := by
  simp only [matchTranscriptLineV]
  split
  · next heq =>
    injection heq with h1 _
    exact absurd h1 hc
  · rfl

theorem matchTranscriptLineV_some {r0 r2 : Str} (htw : r0.takeWhile isWs ≠ [])
    (hts : tsBoundedPre (r0.dropWhile isWs) = some r2) :
    matchTranscriptLineV ('-' :: r0) =
      (if r2.takeWhile isWs = [] then false
       else
         if (r2.dropWhile isWs).takeWhile isWordChar = [] then false
         else
           match (r2.dropWhile isWs).dropWhile isWordChar with
           | c :: rest => isWs c && rest ≠ []
           | [] => false) := by
  rw [matchTranscriptLineV_eq, if_neg htw, hts]

theorem matchTranscriptLineV_nots {r0 : Str} (htw : r0.takeWhile isWs ≠ [])
    (hts : tsBoundedPre (r0.dropWhile isWs) = none) :
    matchTranscriptLineV ('-' :: r0) = false := by
  rw [matchTranscriptLineV_eq, if_neg htw, hts]

theorem matchTranscriptLineV_iff_shape (l : Str) :
    matchTranscriptLineV l = true ↔ wordTokenLineShape l := by
  constructor
  · intro h
    obtain ⟨r0, rfl⟩ : ∃ r0, l = '-' :: r0 := by
      cases l with
      | nil => cases h
      | cons c r0 =>
        by_cases hc : c = '-'
        · exact ⟨r0, by rw [hc]⟩
        · rw [matchTranscriptLineV_ne_dash hc] at h
          cases h
    by_cases htw : r0.takeWhile isWs = []
    · rw [matchTranscriptLineV_eq, if_pos htw] at h
      cases h
    cases hts : tsBoundedPre (r0.dropWhile isWs) with
    | none => rw [matchTranscriptLineV_nots htw hts] at h; cases h
    | some r2 =>
      rw [matchTranscriptLineV_some htw hts] at h
      obtain ⟨ts, hrest, htsm⟩ := tsBoundedPre_iff.mp hts
      by_cases hw2 : r2.takeWhile isWs = []
      · rw [if_pos hw2] at h; cases h
      rw [if_neg hw2] at h
      by_cases htok : (r2.dropWhile isWs).takeWhile isWordChar = []
      · rw [if_pos htok] at h; cases h
      rw [if_neg htok] at h
      cases hr4 : (r2.dropWhile isWs).dropWhile isWordChar with
      | nil => rw [hr4] at h; cases h
      | cons c rest =>
        rw [hr4] at h
        simp only [Bool.and_eq_true, decide_eq_true_eq] at h
        obtain ⟨hcw, hrest4⟩ := h
        refine ⟨r0.takeWhile isWs, ts, r2.takeWhile isWs,
          (r2.dropWhile isWs).takeWhile isWordChar, [c], rest, ?_, htw,
          takeWhile_all _ _, htsm, hw2, takeWhile_all _ _, htok,
          takeWhile_all _ _, by simp, by simp [hcw], hrest4⟩
        have e2 : r2 = r2.takeWhile isWs ++
            ((r2.dropWhile isWs).takeWhile isWordChar ++ ([c] ++ rest)) := by
          calc r2 = r2.takeWhile isWs ++ r2.dropWhile isWs :=
                (List.takeWhile_append_dropWhile _ _).symm
            _ = r2.takeWhile isWs ++
                ((r2.dropWhile isWs).takeWhile isWordChar ++
                  (r2.dropWhile isWs).dropWhile isWordChar) := by
                congr 1
                exact (List.takeWhile_append_dropWhile _ _).symm
            _ = _ := by rw [hr4]; rfl
        calc ('-' :: r0 : Str)
            = '-' :: (r0.takeWhile isWs ++ r0.dropWhile isWs) := by
              rw [List.takeWhile_append_dropWhile]
          _ = '-' :: (r0.takeWhile isWs ++ (ts ++ r2)) := by rw [hrest]
          _ = _ := by conv_lhs => rw [e2]
  · rintro ⟨w1, ts, w2, tok, w3, ct, rfl, hw1, hw1a, htsm, hw2, hw2a,
      htok, htoka, hw3, hw3a, hct⟩
    obtain ⟨tc, tsrest, htse, htsd⟩ :
        ∃ c t, ts = c :: t ∧ isDigit c = true := by
      rcases timestampMatch_iff.mp htsm with
        ⟨h1, a, b, c, d, heq, hd1, _⟩ | ⟨h1, h2, a, b, c, d, heq, hht, _⟩
      · exact ⟨h1, _, heq, hd1⟩
      · refine ⟨h1, _, heq, ?_⟩
        have := hoursTwo_iff.mp hht
        exact isDigit_iff.mpr (by omega)
    obtain ⟨kc, tokrest, htoke, htokw⟩ :
        ∃ c t, tok = c :: t ∧ isWordChar c = true := by
      cases tok with
      | nil => exact absurd rfl htok
      | cons c t =>
        refine ⟨c, t, rfl, ?_⟩
        have := List.all_eq_true.mp htoka c (List.mem_cons_self c t)
        exact this
    obtain ⟨wc, wrest, hwe⟩ : ∃ c t, w3 = c :: t := by
      cases w3 with
      | nil => exact absurd rfl hw3
      | cons c t => exact ⟨c, t, rfl⟩
    have hwcw : isWs wc = true := by
      have := List.all_eq_true.mp hw3a wc (by rw [hwe]; exact List.mem_cons_self _ _)
      exact this
    have harr : w1 ++ (ts ++ (w2 ++ (tok ++ (w3 ++ ct)))) =
        w1 ++ tc :: (tsrest ++ (w2 ++ (tok ++ (w3 ++ ct)))) := by
      rw [htse]
      simp
    have htw : (w1 ++ (ts ++ (w2 ++ (tok ++ (w3 ++ ct))))).takeWhile isWs ≠ [] := by
      rw [harr, (takeWhile_append_stop hw1a _ (isWs_of_isDigit htsd)).1]
      exact hw1
    have hdw : (w1 ++ (ts ++ (w2 ++ (tok ++ (w3 ++ ct))))).dropWhile isWs =
        ts ++ (w2 ++ (tok ++ (w3 ++ ct))) := by
      rw [harr, (takeWhile_append_stop hw1a _ (isWs_of_isDigit htsd)).2, htse]
      rfl
    have hts : tsBoundedPre ((w1 ++ (ts ++ (w2 ++ (tok ++ (w3 ++ ct))))).dropWhile isWs) =
        some (w2 ++ (tok ++ (w3 ++ ct))) := by
      rw [hdw]
      exact tsBoundedPre_iff.mpr ⟨ts, rfl, htsm⟩
    rw [matchTranscriptLineV_some htw hts]
    have harr2 : w2 ++ (tok ++ (w3 ++ ct)) = w2 ++ kc :: (tokrest ++ (w3 ++ ct)) := by
      rw [htoke]
      simp
    have hw2t : (w2 ++ (tok ++ (w3 ++ ct))).takeWhile isWs = w2 := by
      rw [harr2, (takeWhile_append_stop hw2a _ (isWs_of_isWordChar htokw)).1]
    have hw2d : (w2 ++ (tok ++ (w3 ++ ct))).dropWhile isWs = tok ++ (w3 ++ ct) := by
      rw [harr2, (takeWhile_append_stop hw2a _ (isWs_of_isWordChar htokw)).2, htoke]
      rfl
    rw [if_neg (by rw [hw2t]; exact hw2), hw2d]
    have harr3 : tok ++ (w3 ++ ct) = tok ++ wc :: (wrest ++ ct) := by
      rw [hwe]
      simp
    have htokt : (tok ++ (w3 ++ ct)).takeWhile isWordChar = tok := by
      rw [harr3, (takeWhile_append_stop htoka _ (isWordChar_eq_false_of_ws hwcw)).1]
    have htokd : (tok ++ (w3 ++ ct)).dropWhile isWordChar = wc :: (wrest ++ ct) := by
      rw [harr3, (takeWhile_append_stop htoka _ (isWordChar_eq_false_of_ws hwcw)).2]
    rw [if_neg (by rw [htokt]; exact htok), htokd]
    simp [hwcw, hct]

theorem joinSep_all_ws {parts : List Str}
    (h : ∀ p ∈ parts, p.all isWs = true) :
    (joinSep '\n' parts).all isWs = true := by
  induction parts with
  | nil => rfl
  | cons p qs ih =>
    cases qs with
    | nil => exact h p (List.mem_singleton.mpr rfl)
    | cons q qs' =>
      rw [joinSep]
      simp only [List.all_append, List.all_cons, Bool.and_eq_true]
      refine ⟨h p (List.mem_cons_self _ _), by decide, ?_⟩
      exact ih (fun x hx => h x (List.mem_cons_of_mem _ hx))

theorem nonblank_filter_nil_iff {content : Str} :
    (splitChar '\n' content).filter (fun l => (trim l).length > 0) = [] ↔
      trim content = [] := by
  constructor
  · intro h
    rw [trim_nil_iff, ← joinSep_splitChar '\n' content]
    apply joinSep_all_ws
    intro p hp
    by_cases hne : trim p = []
    · rw [← trim_nil_iff]
      exact hne
    · exfalso
      have : p ∈ (splitChar '\n' content).filter (fun l => (trim l).length > 0) :=
        List.mem_filter.mpr ⟨hp, by
          simp only [decide_eq_true_eq]
          cases ht : trim p with
          | nil => exact absurd ht hne
          | cons a t => simp⟩
      rw [h] at this
      cases this
  · intro h
    rw [List.filter_eq_nil]
    intro l hl
    have hall : content.all isWs = true := trim_nil_iff.mp h
    have : l.all isWs = true :=
      List.all_eq_true.mpr (fun c hc =>
        List.all_eq_true.mp hall c (mem_of_mem_splitChar hl hc))
    have : trim l = [] := trim_nil_iff.mpr this
    simp [this]

theorem formatErrorsAt_nil_iff {ls : List Str} : ∀ {i : Nat},
    formatErrorsAt i ls = [] ↔
      ∀ l ∈ ls, matchTranscriptLineV (trim l) = true := by
  induction ls with
  | nil => intro i; simp [formatErrorsAt]
  | cons l rest ih =>
    intro i
    rw [formatErrorsAt]
    by_cases hm : matchTranscriptLineV (trim l) = true
    · simp [hm, ih, List.forall_mem_cons]
    · have hm' : matchTranscriptLineV (trim l) = false := by
        cases h : matchTranscriptLineV (trim l)
        · rfl
        · exact absurd h hm
      simp [hm', List.forall_mem_cons]

/-- Amended C6: validateTranscriptFormat accepts exactly the inputs with at
least one non-blank line in which every non-blank line has the
`- HH:MM:SS token content` shape with a WORD-CHARACTER token
(`[A-Za-z0-9_]+`, the `\w+` of the validation pattern) and a valid bounded
timestamp. -/
theorem C6_validateTranscriptFormat_word_token (content : Str) :
    (validateTranscriptFormat content).isValid = true ↔
      ((splitChar '\n' content).filter (fun l => (trim l).length > 0) ≠ [] ∧
        ∀ l ∈ splitChar '\n' content, trim l ≠ [] →
          wordTokenLineShape (trim l)) := by
  by_cases he : trim content = []
  · rw [validateTranscriptFormat, if_pos he]
    simp only [show ¬(False = True) from by simp]
    constructor
    · intro h
      cases h
    · rintro ⟨hfil, _⟩
      exact absurd (nonblank_filter_nil_iff.mpr he) hfil
  · rw [validateTranscriptFormat, if_neg he]
    have hfil : (splitChar '\n' content).filter
        (fun l => (trim l).length > 0) ≠ [] := by
      rw [Ne, nonblank_filter_nil_iff]
      exact he
    rw [if_neg hfil]
    simp only [decide_eq_true_eq]
    rw [formatErrorsAt_nil_iff]
    constructor
    · intro h
      refine ⟨hfil, fun l hl hlt => ?_⟩
      have hmem : l ∈ (splitChar '\n' content).filter
          (fun x => (trim x).length > 0) :=
        List.mem_filter.mpr ⟨hl, by
          simp only [decide_eq_true_eq]
          cases ht : trim l with
          | nil => exact absurd ht hlt
          | cons a t => simp⟩
      exact (matchTranscriptLineV_iff_shape (trim l)).mp (h l hmem)
    · rintro ⟨_, h⟩
      intro l hl
      obtain ⟨hmem, hlen⟩ := List.mem_filter.mp hl
      apply (matchTranscriptLineV_iff_shape (trim l)).mpr
      apply h l hmem
      simp only [decide_eq_true_eq] at hlen
      intro hnil
      rw [hnil] at hlen
      simp at hlen

/-- Counterexample to C6 as stated: the line
"- 00:00:00 intro-duction hello" satisfies the §4.3 grammar with a
whitespace-delimited token and a valid timestamp, yet
validateTranscriptFormat rejects it (its token class is `\w+`, which the
hyphen fails). -/
theorem C6_counterexample_hyphen_token :
    claimedFormatValid ("- 00:00:00 intro-duction hello".toList) = true ∧
      (validateTranscriptFormat
        ("- 00:00:00 intro-duction hello".toList)).isValid = false := by
  decide

/-! ## Claim theorems: lenient parser structure -/

theorem fallbackLoop_fst : ∀ (ls : List Str) (es : List TranscriptEntry) (j : Nat),
    (fallbackLoop ls (es, 8 * j)).1 = es ++ fallbackSpec j ls := by
  intro ls
  induction ls with
  | nil => intro es j; simp [fallbackLoop, fallbackSpec]
  | cons l rest ih =>
    intro es j
    rw [fallbackLoop, fallbackSpec]
    by_cases hs : fallbackSkip (trim l) = true
    · rw [if_pos hs, if_pos hs, ih]
    · have hs' : fallbackSkip (trim l) = false := by
        cases h : fallbackSkip (trim l)
        · rfl
        · exact absurd h hs
      rw [if_neg hs, if_neg hs]
      have : (8 * j) + 8 = 8 * (j + 1) := by omega
      rw [this, ih]
      simp

theorem parseTranscriptFallback_eq (content : Str) :
    parseTranscriptFallback content =
      fallbackSpec 0 (splitChar '\n' (trim content)) := by
  rw [parseTranscriptFallback]
  have := fallbackLoop_fst (splitChar '\n' (trim content)) [] 0
  simpa using this

/-- Structural description of parseTranscriptFromText, shared by the C2 and
C3 developments. -/
theorem parseTranscriptFromText_eq (content : Str) (h : content ≠ []) :
    parseTranscriptFromText content =
      (let lines := splitChar '\n' (trim content)
       let errs := scanErrorsAt parseGeminiLine 0 lines
       let ents := scanEntriesAt parseGeminiLine 0 lines
       let fb := fallbackSpec 0 lines
       if 0 < errs.length ∧ 5 * errs.length < 4 * lines.length ∧ fb ≠ []
       then .ok (ents ++ fb)
       else if errs ≠ [] then .error (.parseErrors errs)
       else if ents = [] then .error .noValidEntries
       else .ok ents) := by
  rw [parseTranscriptFromText, if_neg h]
  simp only [scanLines_eq, List.nil_append, parseTranscriptFallback_eq]

/-- C2: the lenient parser runs the whole-document fallback pass exactly when
there are errors and they are fewer than 80% of the lines, and when that pass
yields entries the result is the cascade entries followed by the fallback
entries (8-second synthetic timestamps from 0, section "transcript", trimmed
raw lines, short/marker/header lines skipped). -/
theorem C2_parseTranscriptFromText_structure (content : Str) (h : content ≠ []) :
    parseTranscriptFromText content =
      (let lines := splitChar '\n' (trim content)
       let errs := scanErrorsAt parseGeminiLine 0 lines
       let ents := scanEntriesAt parseGeminiLine 0 lines
       let fb := fallbackSpec 0 lines
       if 0 < errs.length ∧ 5 * errs.length < 4 * lines.length ∧ fb ≠ []
       then .ok (ents ++ fb)
       else if errs ≠ [] then .error (.parseErrors errs)
       else if ents = [] then .error .noValidEntries
       else .ok ents) :=
  parseTranscriptFromText_eq content h

/-- Witness for C2 on an input that triggers the fallback pass. -/
theorem C2_parseTranscriptFromText_structure_witness :
    ("zzzzz\n00:00:00 a: hello".toList : Str) ≠ [] ∧
      parseTranscriptFromText ("zzzzz\n00:00:00 a: hello".toList) =
        (let lines := splitChar '\n' (trim ("zzzzz\n00:00:00 a: hello".toList))
         let errs := scanErrorsAt parseGeminiLine 0 lines
         let ents := scanEntriesAt parseGeminiLine 0 lines
         let fb := fallbackSpec 0 lines
         if 0 < errs.length ∧ 5 * errs.length < 4 * lines.length ∧ fb ≠ []
         then .ok (ents ++ fb)
         else if errs ≠ [] then .error (.parseErrors errs)
         else if ents = [] then .error .noValidEntries
         else .ok ents) :=
  ⟨by decide, C2_parseTranscriptFromText_structure _ (by decide)⟩

/-! ## Claim theorems: entry invariants (C3) -/

theorem isValidTimestamp_trim (t : Str) :
    isValidTimestamp (trim t) = isValidTimestamp t := by
  rw [isValidTimestamp, isValidTimestamp, trim_trim]

theorem parseLine_ok_invariant {l : Str} {e : TranscriptEntry}
    (h : parseLine l = .ok e) :
    isValidTimestamp e.timestamp = true ∧ trim e.content ≠ [] := by
  rw [parseLine] at h
  split at h
  · cases h
  · next A B C heq =>
    split at h
    · cases h
    · next hts =>
      split at h
      · cases h
      · split at h
        · cases h
        · split at h
          · cases h
          · next hct =>
            injection h with he
            subst he
            refine ⟨?_, ?_⟩
            · rw [isValidTimestamp_trim]
              exact not_not.mp hts
            · rw [trim_trim]
              exact hct

theorem createTranscriptEntry_ok_invariant {ts sp ct : Str} {e : TranscriptEntry}
    (h : createTranscriptEntry ts sp ct = .ok e) :
    isValidTimestamp e.timestamp = true ∧ trim e.content ≠ [] := by
  rw [createTranscriptEntry] at h
  split at h
  · cases h
  · next hts =>
    split at h
    · cases h
    · split at h
      · cases h
      · next hct =>
        injection h with he
        subst he
        refine ⟨?_, ?_⟩
        · rw [isValidTimestamp_trim]
          exact not_not.mp hts
        · rw [trim_trim]
          exact hct

theorem map_some_ok {r : Except LineError TranscriptEntry} {e : TranscriptEntry}
    (h : r.map some = .ok (some e)) : r = .ok e := by
  cases r with
  | ok a =>
    simp only [Except.map] at h
    injection h with h'
    injection h' with h''
    rw [h'']
  | error err => simp [Except.map] at h

theorem parseGeminiLine_ok_invariant {l : Str} {k : Nat} {e : TranscriptEntry}
    (h : parseGeminiLine l k = .ok (some e)) :
    isValidTimestamp e.timestamp = true ∧ trim e.content ≠ [] := by
  rw [parseGeminiLine] at h
  split at h
  · injection h with h'
    cases h'
  · split at h
    · exact createTranscriptEntry_ok_invariant (map_some_ok h)
    · split at h
      · exact createTranscriptEntry_ok_invariant (map_some_ok h)
      · split at h
        · exact createTranscriptEntry_ok_invariant (map_some_ok h)
        · split at h
          · exact createTranscriptEntry_ok_invariant (map_some_ok h)
          · split at h
            · split at h
              · exact createTranscriptEntry_ok_invariant (map_some_ok h)
              · split at h
                · exact createTranscriptEntry_ok_invariant (map_some_ok h)
                · cases h
            · split at h
              · exact createTranscriptEntry_ok_invariant (map_some_ok h)
              · cases h

theorem scanEntriesAt_mem {f : Str → Nat → Except LineError (Option TranscriptEntry)}
    {ls : List Str} {e : TranscriptEntry} : ∀ {i : Nat},
    e ∈ scanEntriesAt f i ls →
    ∃ l k, trim l ≠ [] ∧ f (trim l) k = .ok (some e) := by
  induction ls with
  | nil => intro i h; cases h
  | cons l rest ih =>
    intro i h
    rw [scanEntriesAt] at h
    rcases List.mem_append.mp h with h | h
    · split at h
      · cases h
      · next hne =>
        split at h
        · next e' heq =>
          rcases List.mem_singleton.mp h with rfl
          exact ⟨l, i + 1, hne, heq⟩
        · cases h
    · exact ih h

theorem fallbackSpec_mem {ls : List Str} {e : TranscriptEntry} : ∀ {j : Nat},
    e ∈ fallbackSpec j ls →
    ∃ jj l, j ≤ jj ∧ jj < j + (fallbackSpec j ls).length ∧
      fallbackSkip (trim l) = false ∧
      e = ⟨secondsToTimestamp (8 * jj), "transcript".toList, trim l⟩ := by
  induction ls with
  | nil => intro j h; cases h
  | cons l rest ih =>
    intro j h
    rw [fallbackSpec] at h
    split at h
    · next hskip0 =>
      obtain ⟨jj, l', h1, h2, h3, h4⟩ := ih h
      refine ⟨jj, l', h1, ?_, h3, h4⟩
      rw [fallbackSpec]
      split
      · exact h2
      · next hskip1 => exact absurd hskip0 hskip1
    · next hskip =>
      have hskip' : fallbackSkip (trim l) = false := by
        cases hx : fallbackSkip (trim l)
        · rfl
        · exact absurd hx hskip
      rcases List.mem_cons.mp h with h | h
      · refine ⟨j, l, le_refl j, ?_, hskip', h⟩
        rw [fallbackSpec, if_neg hskip]
        simp only [List.length_cons]
        omega
      · obtain ⟨jj, l', h1, h2, h3, h4⟩ := ih h
        refine ⟨jj, l', by omega, ?_, h3, h4⟩
        rw [fallbackSpec, if_neg hskip]
        simp only [List.length_cons]
        omega

theorem fallbackSkip_content {l : Str} (h : fallbackSkip (trim l) = false) :
    trim (trim l) ≠ [] := by
  rw [trim_trim]
  intro hnil
  rw [hnil] at h
  simp [fallbackSkip] at h

theorem head?_append_left {a b : Str} (h : a ≠ []) :
    (a ++ b).head? = a.head? := by
  cases a with
  | nil => exact absurd rfl h
  | cons c t => rfl

theorem getLast?_append_right {a b : Str} (h : b ≠ []) :
    (a ++ b).getLast? = b.getLast? := by
  rw [← List.head?_reverse, ← List.head?_reverse, List.reverse_append]
  exact head?_append_left (by simpa using h)

theorem trim_eq_self_of_ends {s : Str}
    (hh : ∀ c, s.head? = some c → isWs c = false)
    (hl : ∀ c, s.getLast? = some c → isWs c = false) : trim s = s := by
  cases hs : s with
  | nil => rfl
  | cons c t =>
    have := trim_sandwich (u := []) (v := []) (d := c :: t) rfl rfl (by simp)
      (fun x hx => hh x (by rw [hs]; exact hx))
      (fun x hx => hl x (by rw [hs]; exact hx))
    simpa using this

theorem cexTail_getLast? : ∀ n, (cexTail (n + 1)).getLast? = some 'o' := by
  intro n
  induction n with
  | zero => decide
  | succ m ih =>
    show (cexTail (m + 2)).getLast? = some 'o'
    have h1 : cexTail (m + 2) = ['\n'] ++ (cexLine ++ cexTail (m + 1)) := rfl
    rw [h1, getLast?_append_right (by simp [cexLine]),
      getLast?_append_right (by rw [show cexTail (m+1) = '\n' :: (cexLine ++ cexTail m) from rfl]; simp)]
    exact ih

theorem cexContent_trim : trim cexContent = cexContent := by
  apply trim_eq_self_of_ends
  · intro c hc
    have hz : cexContent.head? = some 'z' := rfl
    rw [hz] at hc
    injection hc with h
    rw [← h]
    decide
  · intro c hc
    have ho : cexContent.getLast? = some 'o' := by
      rw [cexContent, getLast?_append_right
        (by rw [show cexTail 13600 = '\n' :: (cexLine ++ cexTail 13599) from rfl]; simp)]
      exact cexTail_getLast? 13599
    rw [ho] at hc
    injection hc with h
    rw [← h]
    decide

theorem splitChar_cexTail : ∀ (n : Nat) (a : Str), ('\n' : Char) ∉ a →
    splitChar '\n' (a ++ cexTail n) = a :: List.replicate n cexLine := by
  intro n
  induction n with
  | zero =>
    intro a ha
    rw [show cexTail 0 = [] from rfl, List.append_nil, splitChar_no_sep ha]
    rfl
  | succ m ih =>
    intro a ha
    rw [show cexTail (m + 1) = '\n' :: (cexLine ++ cexTail m) from rfl,
      show a ++ '\n' :: (cexLine ++ cexTail m) = a ++ '\n' :: (cexLine ++ cexTail m) from rfl,
      splitChar_append_sep ha, ih cexLine (by decide), List.replicate_succ]

theorem cexContent_lines :
    splitChar '\n' (trim cexContent) = cexBad :: List.replicate 13600 cexLine := by
  rw [cexContent_trim, cexContent, splitChar_cexTail 13600 cexBad (by decide)]

theorem scanErrorsAt_cexLine_rep : ∀ (n i : Nat),
    scanErrorsAt parseGeminiLine i (List.replicate n cexLine) = [] := by
  intro n
  induction n with
  | zero => intro i; rfl
  | succ m ih =>
    intro i
    rw [List.replicate_succ, scanErrorsAt,
      show trim cexLine = cexLine from by decide,
      show parseGeminiLine cexLine (i + 1) = .ok (some cexEntry) from rfl]
    simp [show cexLine ≠ ([] : Str) from by decide, ih]

theorem mem_fallbackSpec_cexLine_rep : ∀ (n j k : Nat), k < n →
    (⟨secondsToTimestamp (8 * (j + k)), "transcript".toList, cexLine⟩ :
      TranscriptEntry) ∈ fallbackSpec j (List.replicate n cexLine) := by
  intro n
  induction n with
  | zero => intro j k hk; omega
  | succ m ih =>
    intro j k hk
    rw [List.replicate_succ, fallbackSpec,
      show trim cexLine = cexLine from by decide,
      if_neg (by rw [show fallbackSkip cexLine = false from by decide]; simp)]
    cases k with
    | zero =>
      apply List.mem_cons_self
    | succ k' =>
      apply List.mem_cons_of_mem
      have := ih (j + 1) k' (by omega)
      rw [show j + 1 + k' = j + (k' + 1) from by omega] at this
      exact this

/-- Counterexample to C3 as stated: on `cexContent` the lenient parser
succeeds and returns a fallback entry whose synthetic timestamp has reached
24:00:00, which fails isValidTimestamp. -/
theorem C3_counterexample_fallback_overflow :
    ∃ es, parseTranscriptFromText cexContent = .ok es ∧
      ∃ e ∈ es, isValidTimestamp e.timestamp = false := by
  have hc : cexContent ≠ [] := by
    intro h
    have hz : cexContent.head? = some 'z' := rfl
    rw [h] at hz
    cases hz
  have herrs : scanErrorsAt parseGeminiLine 0
      (cexBad :: List.replicate 13600 cexLine) =
      [(1, LineError.invalidGeminiFormat cexBad)] := by
    rw [scanErrorsAt, scanErrorsAt_cexLine_rep 13600 1,
      show trim cexBad = cexBad from by decide,
      show parseGeminiLine cexBad (0 + 1) =
        .error (.invalidGeminiFormat cexBad) from by decide]
    simp [show ¬(cexBad = ([] : Str)) from by decide]
  have hfb : fallbackSpec 0 (cexBad :: List.replicate 13600 cexLine) =
      ⟨secondsToTimestamp (8 * 0), "transcript".toList, cexBad⟩ ::
        fallbackSpec 1 (List.replicate 13600 cexLine) := by
    rw [fallbackSpec, show trim cexBad = cexBad from by decide,
      if_neg (by rw [show fallbackSkip cexBad = false from by decide]; simp)]
  have hcond : 0 < (scanErrorsAt parseGeminiLine 0
        (cexBad :: List.replicate 13600 cexLine)).length ∧
      5 * (scanErrorsAt parseGeminiLine 0
        (cexBad :: List.replicate 13600 cexLine)).length <
        4 * (cexBad :: List.replicate 13600 cexLine).length ∧
      fallbackSpec 0 (cexBad :: List.replicate 13600 cexLine) ≠ [] := by
    refine ⟨by rw [herrs]; decide, ?_,
      by rw [hfb]; exact List.cons_ne_nil _ _⟩
    rw [herrs]
    simp only [List.length_cons, List.length_replicate, List.length_nil]
    omega
  rw [parseTranscriptFromText_eq cexContent hc]
  simp only [cexContent_lines]
  rw [if_pos hcond]
  refine ⟨_, rfl, ?_⟩
  refine ⟨⟨secondsToTimestamp (8 * (1 + 10799)), "transcript".toList, cexLine⟩,
    ?_, ?_⟩
  · apply List.mem_append_right
    rw [hfb]
    apply List.mem_cons_of_mem
    exact mem_fallbackSpec_cexLine_rep 13600 1 10799 (by decide)
  · decide

/-- Amended C3: every entry returned by either parser has non-blank content;
every strict-parser entry also has a valid timestamp; lenient-parser entries
all have valid timestamps provided the whole-document fallback pass emits at
most 10800 entries (at 8 seconds per entry, synthetic timestamps stay below
24:00:00; beyond that the unvalidated fallback timestamps become invalid,
see the counterexample). -/
theorem C3_entry_invariants_amended :
    (∀ (content : Str) (es : List TranscriptEntry),
        parseTranscript content = .ok es →
        ∀ e ∈ es, isValidTimestamp e.timestamp = true ∧ trim e.content ≠ []) ∧
    (∀ (content : Str) (es : List TranscriptEntry),
        parseTranscriptFromText content = .ok es →
        (∀ e ∈ es, trim e.content ≠ []) ∧
        ((parseTranscriptFallback content).length ≤ 10800 →
          ∀ e ∈ es, isValidTimestamp e.timestamp = true)) := by
  constructor
  · intro content es hok e hmem
    rw [parseTranscript] at hok
    by_cases hcn : content = []
    · rw [if_pos hcn] at hok; cases hok
    · rw [if_neg hcn] at hok
      simp only [scanLines_eq, List.nil_append] at hok
      split at hok
      · cases hok
      · split at hok
        · cases hok
        · injection hok with hes
          subst hes
          obtain ⟨l, k, _, heq⟩ := scanEntriesAt_mem hmem
          exact parseLine_ok_invariant (map_some_ok heq)
  · intro content es hok
    by_cases hcn : content = []
    · rw [parseTranscriptFromText, if_pos hcn] at hok
      cases hok
    · rw [parseTranscriptFromText_eq content hcn] at hok
      simp only [] at hok
      split at hok
      · next hcond =>
        injection hok with hes
        subst hes
        constructor
        · intro e hmem
          rcases List.mem_append.mp hmem with h | h
          · obtain ⟨l, k, _, heq⟩ := scanEntriesAt_mem h
            exact (parseGeminiLine_ok_invariant heq).2
          · obtain ⟨jj, l, _, _, hskip, hce⟩ := fallbackSpec_mem h
            rw [hce]
            exact fallbackSkip_content hskip
        · intro hlen e hmem
          rcases List.mem_append.mp hmem with h | h
          · obtain ⟨l, k, _, heq⟩ := scanEntriesAt_mem h
            exact (parseGeminiLine_ok_invariant heq).1
          · obtain ⟨jj, l, _, hj2, hskip, hce⟩ := fallbackSpec_mem h
            rw [parseTranscriptFallback_eq] at hlen
            rw [hce]
            exact isValidTimestamp_secondsToTimestamp (by omega)
      · split at hok
        · cases hok
        · split at hok
          · cases hok
          · injection hok with hes
            subst hes
            constructor
            · intro e hmem
              obtain ⟨l, k, _, heq⟩ := scanEntriesAt_mem hmem
              exact (parseGeminiLine_ok_invariant heq).2
            · intro _ e hmem
              obtain ⟨l, k, _, heq⟩ := scanEntriesAt_mem hmem
              exact (parseGeminiLine_ok_invariant heq).1

/-- Witness for the amended C3 on both parsers at small inputs. -/
theorem C3_entry_invariants_amended_witness :
    (∀ e ∈ [(⟨"00:00:00".toList, "intro".toList, "Welcome".toList⟩ :
        TranscriptEntry)],
      isValidTimestamp e.timestamp = true ∧ trim e.content ≠ []) ∧
    ((∀ e ∈ [cexEntry], trim e.content ≠ []) ∧
      ((parseTranscriptFallback cexLine).length ≤ 10800 →
        ∀ e ∈ [cexEntry], isValidTimestamp e.timestamp = true)) :=
  ⟨C3_entry_invariants_amended.1 ("- 00:00:00 intro Welcome".toList) _ (by decide),
   C3_entry_invariants_amended.2 cexLine [cexEntry] (by decide)⟩

end TA
